import Mathlib

/-!
# Verification of the defkit CUE-generation engine

The repository's `pkg/definition/defkit` package is a declarative builder and
code generator that turns a typed component/trait model into CUE template
text.  This development gives a shallow embedding of its data model (values,
conditions, parameters, resources, iteration items), of the builder
operations (`Set`, `SetIf`, `IfSet`, `IfNotSet`, …), and of the
decomposition-and-rendering algorithm, and proves the documented properties
about them.

The defkit implementation sources ship only with their test files in this
excerpt, so each definition below is modelled from the specification's
description of the engine (§3 data model, §4.2 builder, §4.3 iteration
builder, §4.4 decomposition & rendering) and cross-checked against the
behaviour pinned by `cuegen_test.go`, `array_builder_test.go` and
`expr_test.go`.
-/

namespace DefKit

/-- Modelled from the spec: literal kinds of `Literal{kind, raw}`
(string/int/float/bool/nil). -/
inductive LitKind where
  | str
  | int
  | float
  | bool
  | nil
  deriving DecidableEq, Repr

mutual
/-- Modelled from the spec: the `Value` union — literals, parameter
references, iteration-scope field references, `let` references, function
calls, binary operations, inline structs, array literals, array
concatenation, and the test-visible `InlineArray` (an array holding a single
struct whose fields come from an unordered Go map).  Values are immutable
trees.  Argument and entry lists are represented by the mutual types
`ValueList` / `VFields`. -/
inductive Value where
  | lit (kind : LitKind) (raw : String)
  | paramRef (path : String)
  | fieldRef (varName fieldName : String)
  | letRef (name : String)
  | functionCall (pkg fn : String) (args : ValueList)
  | binaryOp (op : String) (left right : Value)
  | inlineStruct (fields : VFields)
  | arrayValue (entries : ValueList)
  | arrayConcat (left right : Value)
  | inlineArray (fields : VFields)
  deriving DecidableEq, Repr

/-- A list of values (function-call arguments, array entries). -/
inductive ValueList where
  | nil
  | cons (head : Value) (tail : ValueList)
  deriving DecidableEq, Repr

/-- A named-field list (inline struct / inline array fields). -/
inductive VFields where
  | nil
  | cons (name : String) (value : Value) (tail : VFields)
  deriving DecidableEq, Repr
end

/-- Modelled from the spec: comparison operators of `Comparison{op, …}`. -/
inductive CmpOp where
  | eq
  | ne
  | lt
  | le
  | gt
  | ge
  deriving DecidableEq, Repr

mutual
/-- Modelled from the spec: the `Condition` union — comparisons, logical
connectives (`And`/`Or` over zero-or-more items, `Not`), field-existence
checks inside iteration scopes (with a negation flag), and path-existence
checks.  A parameter's `IsSet()` is a path-existence test on the
`parameter["name"]` access path, rendered against the bottom value. -/
inductive Cond where
  | cmp (op : CmpOp) (left right : Value)
  | and (items : CondList)
  | or (items : CondList)
  | not (c : Cond)
  | fieldExists (varName fieldName : String) (negated : Bool)
  | pathExists (path : String)
  deriving DecidableEq, Repr

/-- A list of conditions (the items of `And` / `Or`). -/
inductive CondList where
  | nil
  | cons (head : Cond) (tail : CondList)
  deriving DecidableEq, Repr
end

/-- Modelled from the spec: one `(condition, value)` pair of a path's
condValues list; `cond = none` is an unconditional value. -/
structure CondValue where
  cond : Option Cond
  value : Value
  deriving DecidableEq, Repr

/-- The conditions carried by a condValues list, in insertion order. -/
def condsOf (cvs : List CondValue) : List Cond :=
  cvs.filterMap (·.cond)

/-- Whether every entry of a condValues list is conditional. -/
def allConditional (cvs : List CondValue) : Bool :=
  cvs.all (·.cond.isSome)

/-- Modelled from the spec: a `Resource` — target manifest skeleton with
`apiVersion`, `kind`, and an insertion-ordered map from dotted field paths to
condValues lists. -/
structure Resource where
  apiVersion : String
  kind : String
  assigns : List (String × List CondValue)
  deriving DecidableEq, Repr

/-- `NewResource(apiVersion, kind)`: a resource with no field assignments. -/
def Resource.new (apiVersion kind : String) : Resource :=
  ⟨apiVersion, kind, []⟩

/-- Replace the condValues of `path` in an insertion-ordered assignment list
using `f`, appending `(path, init)` when the path is new. -/
def updateAssigns (l : List (String × List CondValue)) (path : String)
    (f : List CondValue → List CondValue) (init : List CondValue) :
    List (String × List CondValue) :=
  match l with
  | [] => [(path, init)]
  | (q, cvs) :: rest =>
    if q = path then (q, f cvs) :: rest
    else (q, cvs) :: updateAssigns rest path f init

/-- Modelled from the spec (§4.2): `Set(path, value)` — unconditional write,
replacing any prior condValues at that path. -/
def Resource.set (r : Resource) (path : String) (v : Value) : Resource :=
  { r with assigns :=
      updateAssigns r.assigns path (fun _ => [⟨none, v⟩]) [⟨none, v⟩] }

/-- Modelled from the spec (§4.2): `SetIf(cond, path, value)` — appends a new
condValue; if the path previously had an unconditional value, that
unconditional value is replaced (condition wins over prior unconditional). -/
def Resource.setIf (r : Resource) (c : Cond) (path : String) (v : Value) :
    Resource :=
  let keep := fun (cvs : List CondValue) =>
    cvs.filter (·.cond.isSome) ++ [⟨some c, v⟩]
  { r with assigns := updateAssigns r.assigns path keep [⟨some c, v⟩] }

/-! ## Path tree (generator-internal IR)

Modelled from the spec (§3, §4.4 step 1): an n-ary tree mirroring the dotted
path segments of the resource's field assignments; leaves carry condValues
lists, internal nodes aggregate the condition sets of their descendant
leaves.  Children are kept in first-insertion order. -/

mutual
/-- Modelled from the spec: the decomposition tree built from the flat set of
`(path, condValues)` pairs. -/
inductive PathTree where
  | leaf (cvs : List CondValue)
  | node (children : PTChildren)
  deriving DecidableEq, Repr

/-- The insertion-ordered children of an internal node, each labelled with
its path segment. -/
inductive PTChildren where
  | nil
  | cons (seg : String) (child : PathTree) (tail : PTChildren)
  deriving DecidableEq, Repr
end

/-- A fresh branch for the remaining path segments, ending in a leaf. -/
def buildBranch : List String → List CondValue → PathTree
  | [], cvs => .leaf cvs
  | s :: rest, cvs => .node (.cons s (buildBranch rest cvs) .nil)

/-- Update the child labelled `s` with `f`, appending a new child built by
`f none` when the segment is new (first-insertion order preserved). -/
def updateChild : PTChildren → String → (Option PathTree → PathTree) → PTChildren
  | .nil, s, f => .cons s (f none) .nil
  | .cons q t tail, s, f =>
    if q = s then .cons q (f (some t)) tail
    else .cons q t (updateChild tail s f)

/-- Insert one `(segments, condValues)` pair into the tree. -/
def insertPath : PathTree → List String → List CondValue → PathTree
  | _, [], cvs => .leaf cvs
  | t, s :: rest, cvs =>
    let cs := match t with
      | .node cs => cs
      | .leaf _ => .nil
    .node (updateChild cs s (fun old =>
      match old with
      | some child => insertPath child rest cvs
      | none => buildBranch rest cvs))

/-- Split a character list at every separator occurrence. -/
def splitSegsAux (sep : Char) : List Char → List Char → List String
  | [], acc => [String.mk acc.reverse]
  | ch :: rest, acc =>
    if ch = sep then String.mk acc.reverse :: splitSegsAux sep rest []
    else splitSegsAux sep rest (ch :: acc)

/-- Dotted paths split into segments (the Go side splits on the "." rune). -/
def splitPath (p : String) : List String := splitSegsAux '.' p.data []

/-- Build the path tree from a resource's insertion-ordered assignments. -/
def buildTree (assigns : List (String × List CondValue)) : PathTree :=
  assigns.foldl (fun t pc => insertPath t (splitPath pc.1) pc.2) (.node .nil)

mutual
/-- The descendant leaves of a tree, as `(path segments, condValues)` pairs
in traversal (= insertion) order. -/
def PathTree.leaves : PathTree → List (List String × List CondValue)
  | .leaf cvs => [([], cvs)]
  | .node cs => PTChildren.leaves cs

/-- Leaves of a children list, in order. -/
def PTChildren.leaves : PTChildren → List (List String × List CondValue)
  | .nil => []
  | .cons s t tail =>
    (PathTree.leaves t).map (fun pc => (s :: pc.1, pc.2)) ++ PTChildren.leaves tail
end

/-- First-occurrence deduplication, keeping the order in which elements were
first observed (determinism requirement of §4.4 step 3). -/
def dedupFirstAux {α : Type} [DecidableEq α] (seen : List α) : List α → List α
  | [] => []
  | a :: rest =>
    if a ∈ seen then dedupFirstAux seen rest
    else a :: dedupFirstAux (a :: seen) rest

/-- First-occurrence deduplication of a list. -/
def dedupFirst {α : Type} [DecidableEq α] (l : List α) : List α :=
  dedupFirstAux [] l

/-- Modelled from the spec (§4.4 step 1): `conditionSet(node)` — the union,
in first-observed order, over descendant leaves of the conditions in their
condValues. -/
def PathTree.conditionSet (t : PathTree) : List Cond :=
  dedupFirst ((t.leaves.map (fun pc => condsOf pc.2)).flatten)

/-- Modelled from the spec (§4.4 step 1): `isFullyConditional(node)` — true
iff every descendant leaf has zero unconditional condValues. -/
def PathTree.fullyConditional (t : PathTree) : Bool :=
  t.leaves.all (fun pc => allConditional pc.2)

/-- Two condition lists carry the same set of conditions. -/
def sameCondSet (a b : List Cond) : Bool :=
  a.all (fun c => b.contains c) && b.all (fun c => a.contains c)

/-- Modelled from the spec (§4.4 step 2): decomposability —
`decomposable(node) ⟺ isFullyConditional(node) AND every descendant leaf's
condValue-condition-set equals conditionSet(node)`.  Leaves are not
decomposable. -/
def PathTree.decomposable : PathTree → Bool
  | .leaf _ => false
  | .node cs =>
    PathTree.fullyConditional (.node cs) &&
      (PathTree.leaves (.node cs)).all
        (fun pc => sameCondSet (condsOf pc.2) (PathTree.conditionSet (.node cs)))

/-- Filtering a condValues list by a condition: the entry matching the
condition exactly, made unconditional (well-defined inside the guarded
block); no entry yields an empty list. -/
def filterCvs (cvs : List CondValue) (c : Cond) : List CondValue :=
  match cvs.find? (fun cv => cv.cond == some c) with
  | some cv => [⟨none, cv.value⟩]
  | none => []

mutual
/-- Modelled from the spec (§4.4 step 3): `filterNodeByCondition` — project
every leaf of the subtree to its value under condition `c`. -/
def filterNode : PathTree → Cond → PathTree
  | .leaf cvs, c => .leaf (filterCvs cvs c)
  | .node cs, c => .node (filterChildren cs c)

/-- Filter each child of a node by a condition. -/
def filterChildren : PTChildren → Cond → PTChildren
  | .nil, _ => .nil
  | .cons s t tail, c => .cons s (filterNode t c) (filterChildren tail c)
end

/-! ## Structured CUE output

The generator's output is modelled first as a structured document (fields,
struct blocks, `if` blocks, `let` bindings, `for` comprehensions, and
default-union fields), which is then serialized to text.  The claims about
guard placement are settled at this structural level. -/

mutual
/-- One node of the structured CUE output. -/
inductive CueNode where
  | field (name : String) (value : Value)
  | defaultField (name : String) (defVal : Value) (typeHint : String)
  | structBlock (name : String) (body : CueNodes)
  | ifBlock (guard : Cond) (body : CueNodes)
  | letBind (name : String) (value : Value)
  | forBlock (varName : String) (source : Value) (body : CueNodes)
  deriving DecidableEq, Repr

/-- A sequence of output nodes. -/
inductive CueNodes where
  | nil
  | cons (head : CueNode) (tail : CueNodes)
  deriving DecidableEq, Repr
end

/-- A singleton node sequence. -/
def CueNodes.one (n : CueNode) : CueNodes := .cons n .nil

/-- Concatenation of node sequences. -/
def CueNodes.append : CueNodes → CueNodes → CueNodes
  | .nil, ys => ys
  | .cons x xs, ys => .cons x (CueNodes.append xs ys)

mutual
/-- Every value appearing at any field of the output, in traversal order. -/
def CueNode.allValues : CueNode → List Value
  | .field _ v => [v]
  | .defaultField _ v _ => [v]
  | .structBlock _ b => CueNodes.allValues b
  | .ifBlock _ b => CueNodes.allValues b
  | .letBind _ v => [v]
  | .forBlock _ src b => src :: CueNodes.allValues b

/-- All field values of a node sequence. -/
def CueNodes.allValues : CueNodes → List Value
  | .nil => []
  | .cons n rest => CueNode.allValues n ++ CueNodes.allValues rest
end

mutual
/-- Field values that appear outside of every `if` guard. -/
def CueNode.unguardedValues : CueNode → List Value
  | .field _ v => [v]
  | .defaultField _ v _ => [v]
  | .structBlock _ b => CueNodes.unguardedValues b
  | .ifBlock _ _ => []
  | .letBind _ v => [v]
  | .forBlock _ src b => src :: CueNodes.unguardedValues b

/-- Unguarded field values of a node sequence. -/
def CueNodes.unguardedValues : CueNodes → List Value
  | .nil => []
  | .cons n rest => CueNode.unguardedValues n ++ CueNodes.unguardedValues rest
end

mutual
/-- Field values that appear inside an `if` block whose guard is exactly the
given condition. -/
def CueNode.guardedValues (c : Cond) : CueNode → List Value
  | .field _ _ => []
  | .defaultField _ _ _ => []
  | .structBlock _ b => CueNodes.guardedValues c b
  | .ifBlock g b =>
    if g = c then CueNodes.allValues b else CueNodes.guardedValues c b
  | .letBind _ _ => []
  | .forBlock _ _ b => CueNodes.guardedValues c b

/-- Values guarded by exactly `c` in a node sequence. -/
def CueNodes.guardedValues (c : Cond) : CueNodes → List Value
  | .nil => []
  | .cons n rest => CueNode.guardedValues c n ++ CueNodes.guardedValues c rest
end

/-- The guards of the top-level `if` blocks of a node sequence, in order. -/
def CueNodes.topGuards : CueNodes → List Cond
  | .nil => []
  | .cons (.ifBlock g _) rest => g :: CueNodes.topGuards rest
  | .cons _ rest => CueNodes.topGuards rest

/-! ## The decomposition-and-rendering algorithm (§4.4 steps 2–5) -/

/-- Render one leaf under its field name: a single unconditional value
renders directly with no guard (§4.4 step 5); each conditional condValue
renders inside its own `if` guard (guard-per-leaf, §4.4 step 4). -/
def renderLeafCvs (name : String) : List CondValue → CueNodes
  | [] => .nil
  | cv :: rest =>
    match cv.cond with
    | none => .cons (.field name cv.value) (renderLeafCvs name rest)
    | some c =>
      .cons (.ifBlock c (CueNodes.one (.field name cv.value)))
        (renderLeafCvs name rest)

mutual
/-- Plain (guard-free) rendering of a subtree whose leaves have already been
filtered to a single condition: used for the inside of a decomposed
condition block (§4.4 step 3). -/
def renderPlainChild (name : String) : PathTree → CueNodes
  | .leaf cvs => renderLeafCvs name cvs
  | .node cs => CueNodes.one (.structBlock name (renderPlainChildren cs))

/-- Plain rendering of a children list. -/
def renderPlainChildren : PTChildren → CueNodes
  | .nil => .nil
  | .cons s t tail =>
    (renderPlainChild s t).append (renderPlainChildren tail)
end

/-- Modelled from the spec (§4.4 step 3): the decomposed blocks of a node —
for each condition `c` of the node's condition set, in condition-insertion
order, one guarded block holding the node's fields filtered to their value
under `c`. -/
def decompBlocks (name : String) (cs : PTChildren) : List Cond → CueNodes
  | [] => .nil
  | c :: rest =>
    .cons
      (.ifBlock c
        (CueNodes.one (.structBlock name (renderPlainChildren (filterChildren cs c)))))
      (decompBlocks name cs rest)

mutual
/-- Modelled from the spec (§4.4 steps 2–5): render a subtree under its field
name.  A decomposable internal node is decomposed into per-condition guarded
blocks; a non-decomposable node renders as one plain struct block whose
children are rendered recursively; leaves render value-by-value with
guard-per-condValue. -/
def renderChild (name : String) : PathTree → CueNodes
  | .leaf cvs => renderLeafCvs name cvs
  | .node cs =>
    if PathTree.decomposable (.node cs) then
      decompBlocks name cs (PathTree.conditionSet (.node cs))
    else
      CueNodes.one (.structBlock name (renderChildren cs))

/-- Render each child of a node in insertion order. -/
def renderChildren : PTChildren → CueNodes
  | .nil => .nil
  | .cons s t tail => (renderChild s t).append (renderChildren tail)
end

/-- Render a resource's field assignments: build the path tree and render its
top-level children. -/
def renderResourceBody (r : Resource) : CueNodes :=
  match buildTree r.assigns with
  | .leaf cvs => renderLeafCvs "" cvs
  | .node cs => renderChildren cs

/-! ## Canonical ordering for Go-map-supplied field sets

`InlineArray` fields and `FieldMap` entries reach the generator through
unordered Go maps.  Modelled from the spec (§8 round-trip/idempotence, §9
deterministic formatting): the generator imposes a canonical key order on
such field sets, so its output cannot depend on map iteration order. -/

/-- The key ordering used to canonicalize map-supplied field sets. -/
def keyLe {β : Type} (a b : String × β) : Prop := a.1 ≤ b.1

instance {β : Type} : DecidableRel (keyLe (β := β)) :=
  fun a b => inferInstanceAs (Decidable (a.1 ≤ b.1))

instance {β : Type} : IsTotal (String × β) keyLe :=
  ⟨fun a b => le_total a.1 b.1⟩

instance {β : Type} : IsTrans (String × β) keyLe :=
  ⟨fun _ _ _ h h' => le_trans h h'⟩

/-- Sort an association list by key (stable insertion sort). -/
def sortByKey {β : Type} (l : List (String × β)) : List (String × β) :=
  l.insertionSort keyLe

/-- The keys of an association list. -/
def keysOf {β : Type} (l : List (String × β)) : List String :=
  l.map Prod.fst

/-- Conversion of the mutual field-list type to an association list. -/
def VFields.toList : VFields → List (String × Value)
  | .nil => []
  | .cons n v tail => (n, v) :: VFields.toList tail

/-- Conversion of an association list to the mutual field-list type. -/
def VFields.ofList : List (String × Value) → VFields
  | [] => .nil
  | (n, v) :: rest => .cons n v (VFields.ofList rest)

/-! ## Serialization of values and conditions to CUE text -/

/-- Quote a string literal. -/
def quoteStr (s : String) : String := "\"" ++ s ++ "\""

/-- The CUE token of a comparison operator. -/
def cmpOpStr : CmpOp → String
  | .lt => "<"
  | .le => "<="
  | .gt => ">"
  | .ge => ">="
  | .eq => "=="
  | .ne => "!="

/-- Join rendered `key: value` pairs with commas. -/
def joinPairs : List (String × String) → String
  | [] => ""
  | [(k, v)] => k ++ ": " ++ v
  | (k, v) :: rest => k ++ ": " ++ v ++ ", " ++ joinPairs rest

mutual
/-- Render a value to CUE text.  InlineArray fields are emitted in canonical
sorted key order (they come from an unordered Go map); inline-struct fields
keep their insertion order (§4.4 step 9). -/
def renderValue : Value → String
  | .lit .str raw => quoteStr raw
  | .lit _ raw => raw
  | .paramRef path => path
  | .fieldRef v f => v ++ "." ++ f
  | .letRef n => n
  | .functionCall pkg fn args => pkg ++ "." ++ fn ++ "(" ++ renderArgs args ++ ")"
  | .binaryOp op l r => renderValue l ++ " " ++ op ++ " " ++ renderValue r
  | .inlineStruct fields => "\x7b" ++ joinPairs (renderFieldPairs fields) ++ "\x7d"
  | .arrayValue entries => "[" ++ renderArgs entries ++ "]"
  | .arrayConcat l r => renderValue l ++ " + " ++ renderValue r
  | .inlineArray fields =>
    "[\x7b" ++ joinPairs (sortByKey (renderFieldPairs fields)) ++ "\x7d]"

/-- Render a value list as comma-separated text. -/
def renderArgs : ValueList → String
  | .nil => ""
  | .cons v .nil => renderValue v
  | .cons v tail => renderValue v ++ ", " ++ renderArgs tail

/-- Render each named field to its `(key, rendered value)` pair, in order. -/
def renderFieldPairs : VFields → List (String × String)
  | .nil => []
  | .cons n v tail => (n, renderValue v) :: renderFieldPairs tail
end

mutual
/-- Render a condition to CUE text.  Existence tests compare against the
bottom value; an empty `And`/`Or` renders as the always-true guard, never as
invalid syntax (§3 invariant). -/
def renderCond : Cond → String
  | .cmp op l r => renderValue l ++ " " ++ cmpOpStr op ++ " " ++ renderValue r
  | .and items => renderCondItems " && " items
  | .or items => renderCondItems " || " items
  | .not (.pathExists p) => p ++ " == _|_"
  | .not c => "!(" ++ renderCond c ++ ")"
  | .fieldExists v f false => v ++ "." ++ f ++ " != _|_"
  | .fieldExists v f true => v ++ "." ++ f ++ " == _|_"
  | .pathExists p => p ++ " != _|_"

/-- Render the items of a connective, joined by the given separator; zero
items render as the always-true guard. -/
def renderCondItems (sep : String) : CondList → String
  | .nil => "true"
  | .cons c .nil => renderCond c
  | .cons c tail => renderCond c ++ sep ++ renderCondItems sep tail
end

/-! ## Parameter schema model (§3 Parameter) -/

/-- Modelled from the spec: parameter types
(String/Int/Float/Bool/Enum/Struct/Array/Map/OneOf). -/
inductive ParamType where
  | string
  | int
  | float
  | bool
  | enum
  | struct
  | array
  | map
  | oneOf
  deriving DecidableEq, Repr

mutual
/-- Modelled from the spec: one declared parameter — name, type, modifiers
(required, default, description, short flag, ignore, force-optional), enum
values, nested fields (Struct/Array) and variants (OneOf). -/
inductive ParamSpec where
  | mk (name : String) (ptype : ParamType) (required : Bool)
      (default : Option Value) (description : Option String)
      (shortFlag : Option String) (ignored : Bool) (forceOptional : Bool)
      (enumValues : List Value) (fields : ParamList) (variants : VariantList)
  deriving DecidableEq, Repr

/-- A list of parameter declarations. -/
inductive ParamList where
  | nil
  | cons (p : ParamSpec) (tail : ParamList)
  deriving DecidableEq, Repr

/-- OneOf variants: each variant is a discriminator value together with its
own field list. -/
inductive VariantList where
  | nil
  | cons (name : String) (fields : ParamList) (tail : VariantList)
  deriving DecidableEq, Repr
end

/-- The parameter's name. -/
def ParamSpec.name : ParamSpec → String
  | .mk n _ _ _ _ _ _ _ _ _ _ => n

/-- The parameter's declared type. -/
def ParamSpec.ptype : ParamSpec → ParamType
  | .mk _ t _ _ _ _ _ _ _ _ _ => t

/-- Whether the parameter is required. -/
def ParamSpec.required : ParamSpec → Bool
  | .mk _ _ r _ _ _ _ _ _ _ _ => r

/-- The parameter's declared default, when any. -/
def ParamSpec.default : ParamSpec → Option Value
  | .mk _ _ _ d _ _ _ _ _ _ _ => d

/-- The parameter's description, when any. -/
def ParamSpec.description : ParamSpec → Option String
  | .mk _ _ _ _ d _ _ _ _ _ _ => d

/-- The parameter's short flag, when any. -/
def ParamSpec.shortFlag : ParamSpec → Option String
  | .mk _ _ _ _ _ s _ _ _ _ _ => s

/-- Whether the parameter carries the ignore marker. -/
def ParamSpec.ignored : ParamSpec → Bool
  | .mk _ _ _ _ _ _ i _ _ _ _ => i

/-- Whether the parameter is force-optional. -/
def ParamSpec.forceOptional : ParamSpec → Bool
  | .mk _ _ _ _ _ _ _ f _ _ _ => f

/-- The parameter's enum values. -/
def ParamSpec.enumValues : ParamSpec → List Value
  | .mk _ _ _ _ _ _ _ _ e _ _ => e

/-- The parameter's nested fields (Struct/Array element fields). -/
def ParamSpec.fields : ParamSpec → ParamList
  | .mk _ _ _ _ _ _ _ _ _ fs _ => fs

/-- The parameter's OneOf variants. -/
def ParamSpec.variants : ParamSpec → VariantList
  | .mk _ _ _ _ _ _ _ _ _ _ vs => vs

/-- Join enum alternatives with the union separator. -/
def joinUnion : List String → String
  | [] => "_"
  | [s] => s
  | s :: rest => s ++ " | " ++ joinUnion rest

/-- The base CUE type expression of a parameter (without default union). -/
def baseTypeStr (p : ParamSpec) : String :=
  match p.ptype with
  | .string => "string"
  | .int => "int"
  | .float => "float"
  | .bool => "bool"
  | .enum => joinUnion (p.enumValues.map renderValue)
  | .struct => "\x7b...\x7d"
  | .array => "[..._]"
  | .map => "[string]: string"
  | .oneOf => "string"

/-- Modelled from the spec (§3 Parameter invariant, pinned by the
required/ForceOptional tests): whether the rendered parameter carries the
trailing optional marker.  A parameter with a default defers to the
force-optional flag; one without a default is optional iff not required. -/
def hasOptionalMark (p : ParamSpec) : Bool :=
  if p.default.isSome then p.forceOptional else !p.required

/-- The directive comment lines of a parameter, in fixed priority order:
ignore, usage/description, short (§4.2). -/
def paramDirectives (p : ParamSpec) : String :=
  (if p.ignored then "// +ignore\n\t" else "")
    ++ (match p.description with
        | some d => "// +usage=" ++ d ++ "\n\t"
        | none => "")
    ++ (match p.shortFlag with
        | some s => "// +short=" ++ s ++ "\n\t"
        | none => "")

/-- The right-hand side of a parameter declaration: a default union
`*default | type` when a default is declared, else the bare type. -/
def paramRhs (p : ParamSpec) : String :=
  match p.default with
  | some d => "*" ++ renderValue d ++ " | " ++ baseTypeStr p
  | none => baseTypeStr p

/-- Render one parameter declaration line: directives, name, the optional
marker when `hasOptionalMark` holds, and the type/default expression. -/
def renderParamDecl (p : ParamSpec) : String :=
  paramDirectives p ++ p.name
    ++ (if hasOptionalMark p then "?: " else ": ")
    ++ paramRhs p

/-- Render a parameter list, one declaration per line. -/
def renderParamList : ParamList → String
  | .nil => ""
  | .cons p tail => "\t" ++ renderParamDecl p ++ "\n" ++ renderParamList tail

/-! ## OneOf rendering (§3, pinned by the OneOf tests) -/

/-- The variant names of a OneOf, in declaration order. -/
def variantNames : VariantList → List String
  | .nil => []
  | .cons n _ tail => n :: variantNames tail

/-- Look up a variant's field list by name. -/
def variantFields : VariantList → String → Option ParamList
  | .nil, _ => none
  | .cons n fs tail, q => if n = q then some fs else variantFields tail q

/-- Modelled from the spec: the literal union of the discriminator — the
declared default first (it is the starred literal), then the remaining
variant names in declaration order. -/
def oneOfUnionOrder (defName : Option String) (names : List String) :
    List String :=
  match defName with
  | some d => if d ∈ names then d :: names.erase d else names
  | none => names

/-- Join quoted literals with the union separator, starring the declared
default. -/
def joinLits (defName : Option String) : List String → String
  | [] => "_"
  | [s] => (if defName = some s then "*" else "") ++ quoteStr s
  | s :: rest =>
    (if defName = some s then "*" else "") ++ quoteStr s ++ " | "
      ++ joinLits defName rest

/-- The rendered discriminator line of a OneOf: its literal union with the
default starred and placed first. -/
def oneOfDiscLine (discName : String) (defName : Option String)
    (variants : VariantList) : String :=
  discName ++ ": "
    ++ joinLits defName (oneOfUnionOrder defName (variantNames variants))

/-- Modelled from the spec: one conditional block per variant that has at
least one field — variants with zero fields produce no block. -/
def oneOfBlocks (discName : String) : VariantList → List (String × ParamList)
  | .nil => []
  | .cons n fs tail =>
    if fs = .nil then oneOfBlocks discName tail
    else (n, fs) :: oneOfBlocks discName tail

/-- Render the conditional variant blocks of a OneOf. -/
def renderOneOfBlocks (discName : String) (blocks : List (String × ParamList)) :
    String :=
  match blocks with
  | [] => ""
  | (n, fs) :: rest =>
    "if " ++ discName ++ " == " ++ quoteStr n ++ " \x7b\n"
      ++ renderParamList fs ++ "\x7d\n"
      ++ renderOneOfBlocks discName rest

/-- Render a whole OneOf parameter: discriminator line first (§4.4 step 9),
then one guarded block per non-empty variant. -/
def renderOneOf (p : ParamSpec) (defName : Option String) : String :=
  oneOfDiscLine p.name defName p.variants ++ "\n"
    ++ renderOneOfBlocks p.name (oneOfBlocks p.name p.variants)

/-! ## Iteration items (§3 Iteration block, §4.3) -/

mutual
/-- Modelled from the spec: per-item operations of an iteration block —
`Set`, `SetDefault`, `Let`, `If`, and the existence-guarded
`IfFieldSet` / `IfFieldNotSet` branches (meant to be emitted as an if/else
pair when both are present for one field). -/
inductive ItemOp where
  | set (field : String) (v : Value)
  | setDefault (field : String) (v : Value) (typeHint : String)
  | letOp (name : String) (v : Value)
  | ifOp (c : Cond) (ops : ItemOps)
  | ifFieldSet (field : String) (ops : ItemOps)
  | ifFieldNotSet (field : String) (ops : ItemOps)
  deriving DecidableEq, Repr

/-- The recorded operation list of one iteration item. -/
inductive ItemOps where
  | nil
  | cons (op : ItemOp) (tail : ItemOps)
  deriving DecidableEq, Repr
end

/-- Concatenation of item-operation lists. -/
def ItemOps.append : ItemOps → ItemOps → ItemOps
  | .nil, ys => ys
  | .cons x xs, ys => .cons x (ItemOps.append xs ys)

/-- Whether an operation renders a top-level existence guard on `field` of
the iteration variable (either polarity). -/
def opRendersFieldGuard (varName field : String) : ItemOp → Bool
  | .ifFieldSet f _ => f = field
  | .ifFieldNotSet f _ => f = field
  | .ifOp c _ =>
    c = Cond.fieldExists varName field false
      || c = Cond.fieldExists varName field true
  | _ => false

/-- Whether no operation of the list renders an existence guard on `field`. -/
def opsFieldGuardFree (varName field : String) : ItemOps → Bool
  | .nil => true
  | .cons op tail =>
    !opRendersFieldGuard varName field op && opsFieldGuardFree varName field tail

mutual
/-- Modelled from the spec (§4.3): render one item operation.  `IfSet`
renders as the positive existence guard, `IfNotSet` as the complementary
negative guard, so a recorded `IfSet`/`IfNotSet` pair for the same field
forms one if/else construct. -/
def renderItemOp (varName : String) : ItemOp → CueNode
  | .set f v => .field f v
  | .setDefault f v th => .defaultField f v th
  | .letOp n v => .letBind n v
  | .ifOp c ops => .ifBlock c (renderItemOps varName ops)
  | .ifFieldSet f ops =>
    .ifBlock (.fieldExists varName f false) (renderItemOps varName ops)
  | .ifFieldNotSet f ops =>
    .ifBlock (.fieldExists varName f true) (renderItemOps varName ops)

/-- Render an item's operations in recorded order, one node each. -/
def renderItemOps (varName : String) : ItemOps → CueNodes
  | .nil => .nil
  | .cons op tail => .cons (renderItemOp varName op) (renderItemOps varName tail)
end

/-- Whether one output node is an `if` block guarded by the existence test
on `field` of the iteration variable with the given polarity. -/
def nodeFieldGuard (varName field : String) (negated : Bool) : CueNode → Nat
  | .ifBlock (.fieldExists v g n) _ =>
    if v = varName ∧ g = field ∧ n = negated then 1 else 0
  | _ => 0

/-- Count the top-level existence guards on `field` with the given polarity
among a rendered node sequence. -/
def countFieldGuard (varName field : String) (negated : Bool) : CueNodes → Nat
  | .nil => 0
  | .cons node rest =>
    nodeFieldGuard varName field negated node
      + countFieldGuard varName field negated rest

/-! ## Field maps (`Each(...).Map(FieldMap{...})`) -/

/-- Modelled from the spec and the tests: one entry of a `FieldMap` — a
plain per-item field reference, an optional reference (emitted only when the
source field exists), an optional reference additionally guarded by a
compound condition (`OptionalFieldWithCond`), a conditional-or fallback
(`OrConditional`), or a fixed value. -/
inductive MapEntry where
  | ref (field : String)
  | optionalRef (field : String)
  | optionalWithCond (field : String) (c : Cond)
  | orConditional (field : String) (fallback : Value)
  | val (v : Value)
  deriving DecidableEq, Repr

/-- Modelled from the spec (§4.4 steps 6–7): render one field-map entry.
`OptionalFieldWithCond` nests the compound condition inside the existence
test (existence first, then the condition); `OrConditional` renders as an
if/else pair — the primary expression under the existence guard, the
fallback under the complementary guard — never as a CUE default-value
union. -/
def renderMapEntry (varName : String) : String × MapEntry → CueNodes
  | (name, .ref f) => CueNodes.one (.field name (.fieldRef varName f))
  | (name, .optionalRef f) =>
    CueNodes.one
      (.ifBlock (.fieldExists varName f false)
        (CueNodes.one (.field name (.fieldRef varName f))))
  | (name, .optionalWithCond f c) =>
    CueNodes.one
      (.ifBlock (.fieldExists varName f false)
        (CueNodes.one (.ifBlock c
          (CueNodes.one (.field name (.fieldRef varName f))))))
  | (name, .orConditional f fb) =>
    .cons
      (.ifBlock (.fieldExists varName f false)
        (CueNodes.one (.field name (.fieldRef varName f))))
      (CueNodes.one
        (.ifBlock (.fieldExists varName f true)
          (CueNodes.one (.field name fb))))
  | (name, .val v) => CueNodes.one (.field name v)

/-- Concatenate a list of node sequences. -/
def concatNodes : List CueNodes → CueNodes
  | [] => .nil
  | ns :: rest => ns.append (concatNodes rest)

/-- Render a whole field map: entries in canonical sorted key order (the
`FieldMap` is an unordered Go map), each desugared by `renderMapEntry`. -/
def renderFieldMap (varName : String) (fm : List (String × MapEntry)) :
    CueNodes :=
  concatNodes ((sortByKey fm).map (renderMapEntry varName))

mutual
/-- Count default-union fields (`name: *default | type`) inside one node. -/
def countDefaultFieldsNode : CueNode → Nat
  | .field _ _ => 0
  | .defaultField _ _ _ => 1
  | .structBlock _ b => countDefaultFields b
  | .ifBlock _ b => countDefaultFields b
  | .letBind _ _ => 0
  | .forBlock _ _ b => countDefaultFields b

/-- Count the default-union fields anywhere in a rendered node sequence. -/
def countDefaultFields : CueNodes → Nat
  | .nil => 0
  | .cons n rest => countDefaultFieldsNode n + countDefaultFields rest
end

/-! ## Import detection (§4.4 step 8, §7)

Modelled from the spec: the engine recognizes a fixed, extensible table of
`(package, function)` pairs — numeric-to-string conversion, string
case/prefix/suffix operations, list concatenation.  While rendering any
value that calls a function from the table, the owning package is recorded;
the final import set is deduplicated and sorted.  A call outside the table
simply contributes no import and is never an error. -/

/-- The known `(package, function)` pairs for import detection. -/
def knownImportFns : List (String × String) :=
  [("strconv", "FormatInt"),
   ("strconv", "Atoi"),
   ("strings", "ToLower"),
   ("strings", "ToUpper"),
   ("strings", "HasPrefix"),
   ("strings", "HasSuffix"),
   ("strings", "TrimPrefix"),
   ("strings", "TrimSuffix"),
   ("strings", "Join"),
   ("list", "Concat")]

mutual
/-- The packages referenced by the known function calls of a value, in
traversal order (with repetitions). -/
def Value.imports : Value → List String
  | .lit _ _ => []
  | .paramRef _ => []
  | .fieldRef _ _ => []
  | .letRef _ => []
  | .functionCall pkg fn args =>
    (if (pkg, fn) ∈ knownImportFns then [pkg] else []) ++ ValueList.imports args
  | .binaryOp _ l r => Value.imports l ++ Value.imports r
  | .inlineStruct fields => VFields.imports fields
  | .arrayValue entries => ValueList.imports entries
  | .arrayConcat l r => Value.imports l ++ Value.imports r
  | .inlineArray fields => VFields.imports fields

/-- Imports referenced by a value list. -/
def ValueList.imports : ValueList → List String
  | .nil => []
  | .cons v tail => Value.imports v ++ ValueList.imports tail

/-- Imports referenced by a field list. -/
def VFields.imports : VFields → List String
  | .nil => []
  | .cons _ v tail => Value.imports v ++ VFields.imports tail
end

mutual
/-- Imports referenced by a condition's operand values. -/
def Cond.imports : Cond → List String
  | .cmp _ l r => Value.imports l ++ Value.imports r
  | .and items => CondList.imports items
  | .or items => CondList.imports items
  | .not c => Cond.imports c
  | .fieldExists _ _ _ => []
  | .pathExists _ => []

/-- Imports referenced by a condition list. -/
def CondList.imports : CondList → List String
  | .nil => []
  | .cons c tail => Cond.imports c ++ CondList.imports tail
end

mutual
/-- Imports referenced by one iteration item operation. -/
def ItemOp.imports : ItemOp → List String
  | .set _ v => Value.imports v
  | .setDefault _ v _ => Value.imports v
  | .letOp _ v => Value.imports v
  | .ifOp c ops => Cond.imports c ++ ItemOps.imports ops
  | .ifFieldSet _ ops => ItemOps.imports ops
  | .ifFieldNotSet _ ops => ItemOps.imports ops

/-- Imports referenced by an item operation list. -/
def ItemOps.imports : ItemOps → List String
  | .nil => []
  | .cons op tail => ItemOp.imports op ++ ItemOps.imports tail
end

/-- The raw (ordered, with repetitions) imports referenced by a resource's
assignments: every condValue's guard and value, in insertion order. -/
def resourceRawImports (r : Resource) : List String :=
  (r.assigns.map (fun pc =>
    (pc.2.map (fun cv =>
      (match cv.cond with
       | some c => Cond.imports c
       | none => []) ++ Value.imports cv.value)).flatten)).flatten

/-- The rendered import set of a resource: deduplicated (first occurrence)
and sorted. -/
def resourceImports (r : Resource) : List String :=
  (dedupFirst (resourceRawImports r)).insertionSort (· ≤ ·)

/-! ## Full definition assembly -/

mutual
/-- Serialize one structured output node to CUE text at the given
indentation. -/
def CueNode.render (indent : String) : CueNode → String
  | .field name v => indent ++ name ++ ": " ++ renderValue v ++ "\n"
  | .defaultField name v th =>
    indent ++ name ++ ": *" ++ renderValue v ++ " | " ++ th ++ "\n"
  | .structBlock name body =>
    indent ++ name ++ ": \x7b\n" ++ CueNodes.render (indent ++ "\t") body
      ++ indent ++ "\x7d\n"
  | .ifBlock g body =>
    indent ++ "if " ++ renderCond g ++ " \x7b\n"
      ++ CueNodes.render (indent ++ "\t") body ++ indent ++ "\x7d\n"
  | .letBind name v => indent ++ "let " ++ name ++ " = " ++ renderValue v ++ "\n"
  | .forBlock varName src body =>
    indent ++ "for " ++ varName ++ " in " ++ renderValue src ++ " \x7b\n"
      ++ CueNodes.render (indent ++ "\t") body ++ indent ++ "\x7d\n"

/-- Serialize a node sequence. -/
def CueNodes.render (indent : String) : CueNodes → String
  | .nil => ""
  | .cons n rest => CueNode.render indent n ++ CueNodes.render indent rest
end

/-- Modelled from the spec: a component definition — name, description,
workload GVK, declared parameters, and the template's output resources. -/
structure Component where
  name : String
  description : Option String
  workloadApiVersion : String
  workloadKind : String
  params : ParamList
  outputs : List Resource
  deriving Repr

/-- Comma-join quoted import names. -/
def joinImports : List String → String
  | [] => ""
  | [p] => quoteStr p
  | p :: rest => quoteStr p ++ ", " ++ joinImports rest

/-- Render the sorted import header of a definition. -/
def renderImports (pkgs : List String) : String :=
  match pkgs with
  | [] => ""
  | _ => "import (" ++ joinImports pkgs ++ ")\n"

/-- The import set of a whole component: the union over its outputs,
deduplicated in first-occurrence order and sorted. -/
def componentImports (c : Component) : List String :=
  (dedupFirst ((c.outputs.map resourceRawImports).flatten)).insertionSort (· ≤ ·)

/-- Render one output resource: its body nested under `output:`. -/
def renderOutput (r : Resource) : String :=
  "output: \x7b\n" ++ CueNodes.render "\t" (renderResourceBody r) ++ "\x7d\n"

/-- `GenerateFullDefinition`: imports first, then the template outputs, then
the parameter schema.  A pure function of the finished graph — rendering the
same unmodified graph twice yields byte-identical text. -/
def generateFullDefinition (c : Component) : String :=
  renderImports (componentImports c)
    ++ "template: \x7b\n"
    ++ String.join (c.outputs.map renderOutput)
    ++ "parameter: \x7b\n" ++ renderParamList c.params ++ "\x7d\n"
    ++ "\x7d\n"

/-! ## Observation helpers used by the statements -/

/-- The unconditional values of a condValues list, in order. -/
def uncondValuesOf (cvs : List CondValue) : List Value :=
  cvs.filterMap (fun cv =>
    match cv.cond with
    | none => some cv.value
    | some _ => none)

/-- The values a condValues list records under a given condition, in
order. -/
def valuesUnder (cvs : List CondValue) (c : Cond) : List Value :=
  cvs.filterMap (fun cv => if cv.cond = some c then some cv.value else none)

/-- The node sequence as a plain list. -/
def CueNodes.toList : CueNodes → List CueNode
  | .nil => []
  | .cons n rest => n :: CueNodes.toList rest

/-- The strict key ordering (used to show canonical key order is unique). -/
def keyLt {β : Type} (a b : String × β) : Prop := a.1 < b.1

instance {β : Type} : IsAntisymm (String × β) (keyLt (β := β)) :=
  ⟨fun _ _ h h' => absurd h' (lt_asymm h)⟩

/-- The variants of a OneOf as a plain list of `(name, fields)` pairs. -/
def variantsToList : VariantList → List (String × ParamList)
  | .nil => []
  | .cons n fs tail => (n, fs) :: variantsToList tail

/-! ## Helper lemmas -/

theorem CueNodes.append_nil : ∀ xs : CueNodes, xs.append .nil = xs
  | .nil => rfl
  | .cons x xs => by rw [CueNodes.append, CueNodes.append_nil xs]

theorem CueNodes.allValues_append : ∀ xs ys : CueNodes,
    (xs.append ys).allValues = xs.allValues ++ ys.allValues
  | .nil, ys => rfl
  | .cons x xs, ys => by
    rw [CueNodes.append, CueNodes.allValues, CueNodes.allValues,
      CueNodes.allValues_append xs ys, List.append_assoc]

theorem CueNodes.unguardedValues_append : ∀ xs ys : CueNodes,
    (xs.append ys).unguardedValues = xs.unguardedValues ++ ys.unguardedValues
  | .nil, ys => rfl
  | .cons x xs, ys => by
    rw [CueNodes.append, CueNodes.unguardedValues, CueNodes.unguardedValues,
      CueNodes.unguardedValues_append xs ys, List.append_assoc]

theorem CueNodes.guardedValues_append (c : Cond) : ∀ xs ys : CueNodes,
    CueNodes.guardedValues c (xs.append ys)
      = CueNodes.guardedValues c xs ++ CueNodes.guardedValues c ys
  | .nil, ys => rfl
  | .cons x xs, ys => by
    rw [CueNodes.append, CueNodes.guardedValues, CueNodes.guardedValues,
      CueNodes.guardedValues_append c xs ys, List.append_assoc]

theorem CueNodes.topGuards_append : ∀ xs ys : CueNodes,
    (xs.append ys).topGuards = xs.topGuards ++ ys.topGuards
  | .nil, ys => rfl
  | .cons x xs, ys => by
    cases x <;>
      simp [CueNodes.append, CueNodes.topGuards, CueNodes.topGuards_append xs ys]

theorem CueNodes.toList_append : ∀ xs ys : CueNodes,
    (xs.append ys).toList = xs.toList ++ ys.toList
  | .nil, ys => rfl
  | .cons x xs, ys => by
    rw [CueNodes.append, CueNodes.toList, CueNodes.toList,
      CueNodes.toList_append xs ys, List.cons_append]

theorem mem_dedupFirstAux {α : Type} [DecidableEq α] (a : α) :
    ∀ (l seen : List α), a ∈ dedupFirstAux seen l ↔ a ∈ l ∧ a ∉ seen := by
  intro l
  induction l with
  | nil => intro seen; simp [dedupFirstAux]
  | cons b rest ih =>
    intro seen
    by_cases hb : b ∈ seen
    · rw [dedupFirstAux, if_pos hb, ih seen]
      constructor
      · rintro ⟨h1, h2⟩
        exact ⟨List.mem_cons_of_mem _ h1, h2⟩
      · rintro ⟨h1, h2⟩
        rcases List.mem_cons.mp h1 with h | h
        · exact absurd (h ▸ hb) h2
        · exact ⟨h, h2⟩
    · rw [dedupFirstAux, if_neg hb]
      constructor
      · intro h
        rcases List.mem_cons.mp h with h | h
        · exact ⟨h ▸ List.mem_cons_self b rest, h ▸ hb⟩
        · rcases (ih (b :: seen)).mp h with ⟨h1, h2⟩
          refine ⟨List.mem_cons_of_mem _ h1, fun hs => h2 ?_⟩
          exact List.mem_cons_of_mem _ hs
      · rintro ⟨h1, h2⟩
        rcases List.mem_cons.mp h1 with h | h
        · exact h ▸ List.mem_cons_self _ _
        · by_cases hab : a = b
          · exact hab ▸ List.mem_cons_self _ _
          · refine List.mem_cons_of_mem _ ((ih (b :: seen)).mpr ⟨h, ?_⟩)
            intro hs
            rcases List.mem_cons.mp hs with h' | h'
            · exact hab h'
            · exact h2 h'

theorem nodup_dedupFirstAux {α : Type} [DecidableEq α] :
    ∀ (l seen : List α), (dedupFirstAux seen l).Nodup := by
  intro l
  induction l with
  | nil => intro seen; simp [dedupFirstAux]
  | cons b rest ih =>
    intro seen
    by_cases hb : b ∈ seen
    · rw [dedupFirstAux, if_pos hb]; exact ih seen
    · rw [dedupFirstAux, if_neg hb]
      refine List.nodup_cons.mpr ⟨fun hmem => ?_, ih (b :: seen)⟩
      exact ((mem_dedupFirstAux b rest (b :: seen)).mp hmem).2
        (List.mem_cons_self _ _)

theorem mem_dedupFirst {α : Type} [DecidableEq α] (a : α) (l : List α) :
    a ∈ dedupFirst l ↔ a ∈ l := by
  rw [dedupFirst, mem_dedupFirstAux]
  simp

theorem nodup_dedupFirst {α : Type} [DecidableEq α] (l : List α) :
    (dedupFirst l).Nodup :=
  nodup_dedupFirstAux l []

theorem dedupFirstAux_eq_self {α : Type} [DecidableEq α] :
    ∀ (l seen : List α), l.Nodup → (∀ a ∈ l, a ∉ seen) →
      dedupFirstAux seen l = l := by
  intro l
  induction l with
  | nil => intro seen _ _; rfl
  | cons b rest ih =>
    intro seen hnd hdisj
    rw [dedupFirstAux, if_neg (hdisj b (List.mem_cons_self _ _))]
    have hnd' := List.nodup_cons.mp hnd
    refine congrArg (b :: ·) (ih (b :: seen) hnd'.2 ?_)
    intro a ha hs
    rcases List.mem_cons.mp hs with h' | h'
    · exact hnd'.1 (h' ▸ ha)
    · exact hdisj a (List.mem_cons_of_mem _ ha) h'

theorem dedupFirst_eq_self {α : Type} [DecidableEq α] (l : List α)
    (h : l.Nodup) : dedupFirst l = l :=
  dedupFirstAux_eq_self l [] h (by simp)

theorem leaves_buildBranch : ∀ (rest : List String) (cvs : List CondValue),
    (buildBranch rest cvs).leaves = [(rest, cvs)]
  | [], cvs => rfl
  | s :: rest, cvs => by
    rw [buildBranch, PathTree.leaves, PTChildren.leaves, PTChildren.leaves,
      leaves_buildBranch rest cvs]
    simp

mutual
theorem filterNode_leaves : ∀ (t : PathTree) (c : Cond),
    (filterNode t c).leaves = t.leaves.map (fun pc => (pc.1, filterCvs pc.2 c))
  | .leaf cvs, c => by
    rw [filterNode, PathTree.leaves, PathTree.leaves]
    simp
  | .node cs, c => by
    rw [filterNode, PathTree.leaves, PathTree.leaves]
    exact filterChildren_leaves cs c

theorem filterChildren_leaves : ∀ (cs : PTChildren) (c : Cond),
    (filterChildren cs c).leaves
      = cs.leaves.map (fun pc => (pc.1, filterCvs pc.2 c))
  | .nil, c => rfl
  | .cons s t tail, c => by
    rw [filterChildren, PTChildren.leaves, PTChildren.leaves,
      filterNode_leaves t c, filterChildren_leaves tail c]
    simp [Function.comp]
end

theorem condsOf_cons (cv : CondValue) (rest : List CondValue) :
    condsOf (cv :: rest)
      = (match cv.cond with
         | some c => c :: condsOf rest
         | none => condsOf rest) := by
  cases h : cv.cond <;> simp [condsOf, List.filterMap_cons, h]

theorem mem_condsOf {c : Cond} : ∀ {cvs : List CondValue},
    c ∈ condsOf cvs ↔ ∃ cv ∈ cvs, cv.cond = some c := by
  intro cvs
  simp [condsOf, List.mem_filterMap]

theorem find?_cond_eq_of_nodup :
    ∀ (cvs : List CondValue) (c : Cond) (cv : CondValue),
      cv ∈ cvs → cv.cond = some c → (condsOf cvs).Nodup →
      cvs.find? (fun x => x.cond == some c) = some cv := by
  intro cvs
  induction cvs with
  | nil => intro c cv h; simp at h
  | cons x rest ih =>
    intro c cv hmem hc hnd
    rcases List.mem_cons.mp hmem with h | h
    · subst h
      rw [List.find?_cons_of_pos]
      simp [hc]
    · have hx : ¬(x.cond == some c) = true := by
        intro hxc
        have hxc' : x.cond = some c := by
          simpa using hxc
        have hcrest : c ∈ condsOf rest := mem_condsOf.mpr ⟨cv, h, hc⟩
        rw [condsOf_cons, hxc'] at hnd
        exact (List.nodup_cons.mp hnd).1 hcrest
      rw [List.find?_cons_of_neg _ (by simpa using hx)]
      have hnd' : (condsOf rest).Nodup := by
        rw [condsOf_cons] at hnd
        cases hx' : x.cond with
        | some c' => rw [hx'] at hnd; exact (List.nodup_cons.mp hnd).2
        | none => rwa [hx'] at hnd
      exact ih c cv h hc hnd'

theorem filterCvs_values_of_nodup :
    ∀ (cvs : List CondValue) (c : Cond), (condsOf cvs).Nodup →
      (filterCvs cvs c).map (·.value) = valuesUnder cvs c := by
  intro cvs
  induction cvs with
  | nil => intro c _; rfl
  | cons x rest ih =>
    intro c hnd
    by_cases hx : x.cond = some c
    · rw [filterCvs, List.find?_cons_of_pos _ (by simp [hx])]
      have hrest : valuesUnder rest c = [] := by
        rw [condsOf_cons, hx] at hnd
        have hcr : c ∉ condsOf rest := (List.nodup_cons.mp hnd).1
        rw [valuesUnder, List.filterMap_eq_nil_iff]
        intro cv hcv
        have : cv.cond ≠ some c := fun hcc =>
          hcr (mem_condsOf.mpr ⟨cv, hcv, hcc⟩)
        simp [this]
      rw [valuesUnder, List.filterMap_cons, if_pos hx]
      simpa [valuesUnder] using hrest
    · rw [filterCvs, List.find?_cons_of_neg _ (by simp [hx])]
      have hnd' : (condsOf rest).Nodup := by
        rw [condsOf_cons] at hnd
        cases hx' : x.cond with
        | some c' => rw [hx'] at hnd; exact (List.nodup_cons.mp hnd).2
        | none => rwa [hx'] at hnd
      rw [valuesUnder, List.filterMap_cons, if_neg hx]
      exact ih c hnd'

theorem uncondValuesOf_eq_nil_of_allConditional {cvs : List CondValue}
    (h : allConditional cvs = true) : uncondValuesOf cvs = [] := by
  rw [uncondValuesOf, List.filterMap_eq_nil_iff]
  intro cv hcv
  have := (List.all_eq_true.mp h) cv hcv
  cases hc : cv.cond with
  | some c => simp
  | none => rw [hc] at this; simp at this

theorem valuesUnder_eq_nil_of_not_mem {cvs : List CondValue} {c : Cond}
    (h : c ∉ condsOf cvs) : valuesUnder cvs c = [] := by
  rw [valuesUnder, List.filterMap_eq_nil_iff]
  intro cv hcv
  have : cv.cond ≠ some c := fun hcc => h (mem_condsOf.mpr ⟨cv, hcv, hcc⟩)
  simp [this]

theorem allValues_renderLeafCvs (name : String) :
    ∀ cvs : List CondValue,
      (renderLeafCvs name cvs).allValues = cvs.map (·.value)
  | [] => rfl
  | cv :: rest => by
    cases h : cv.cond <;>
      simp [renderLeafCvs, h, CueNodes.allValues, CueNode.allValues,
        CueNodes.one, allValues_renderLeafCvs name rest]

theorem unguardedValues_renderLeafCvs (name : String) :
    ∀ cvs : List CondValue,
      (renderLeafCvs name cvs).unguardedValues = uncondValuesOf cvs
  | [] => rfl
  | cv :: rest => by
    cases h : cv.cond <;>
      simp [renderLeafCvs, h, CueNodes.unguardedValues, CueNode.unguardedValues,
        CueNodes.one, unguardedValues_renderLeafCvs name rest, uncondValuesOf,
        List.filterMap_cons]

theorem guardedValues_renderLeafCvs (name : String) (c : Cond) :
    ∀ cvs : List CondValue,
      CueNodes.guardedValues c (renderLeafCvs name cvs) = valuesUnder cvs c
  | [] => rfl
  | cv :: rest => by
    cases h : cv.cond with
    | none =>
      simp [renderLeafCvs, h, CueNodes.guardedValues, CueNode.guardedValues,
        guardedValues_renderLeafCvs name c rest, valuesUnder,
        List.filterMap_cons, h]
    | some c' =>
      by_cases hc : c' = c
      · simp [renderLeafCvs, h, CueNodes.guardedValues, CueNode.guardedValues,
          CueNodes.one, CueNodes.allValues, CueNode.allValues, hc,
          guardedValues_renderLeafCvs name c rest, valuesUnder,
          List.filterMap_cons, h]
      · simp [renderLeafCvs, h, CueNodes.guardedValues, CueNode.guardedValues,
          CueNodes.one, hc, guardedValues_renderLeafCvs name c rest,
          valuesUnder, List.filterMap_cons, h,
          fun hh => hc (Option.some.inj hh)]

theorem topGuards_renderLeafCvs (name : String) :
    ∀ cvs : List CondValue,
      (renderLeafCvs name cvs).topGuards = condsOf cvs
  | [] => rfl
  | cv :: rest => by
    cases h : cv.cond <;>
      simp [renderLeafCvs, h, CueNodes.topGuards,
        topGuards_renderLeafCvs name rest, condsOf, List.filterMap_cons]

mutual
theorem allValues_renderPlainChild : ∀ (name : String) (t : PathTree),
    (renderPlainChild name t).allValues
      = (t.leaves.map (fun pc => pc.2.map (·.value))).flatten
  | name, .leaf cvs => by
    rw [renderPlainChild, PathTree.leaves]
    simp [allValues_renderLeafCvs]
  | name, .node cs => by
    rw [renderPlainChild, PathTree.leaves]
    simpa [CueNodes.one, CueNodes.allValues, CueNode.allValues] using
      allValues_renderPlainChildren cs

theorem allValues_renderPlainChildren : ∀ cs : PTChildren,
    (renderPlainChildren cs).allValues
      = (cs.leaves.map (fun pc => pc.2.map (·.value))).flatten
  | .nil => rfl
  | .cons s t tail => by
    rw [renderPlainChildren, PTChildren.leaves, CueNodes.allValues_append,
      allValues_renderPlainChild s t, allValues_renderPlainChildren tail]
    simp [Function.comp_def]
end

mutual
theorem guardedValues_renderPlainChild (c : Cond) :
    ∀ (name : String) (t : PathTree),
      CueNodes.guardedValues c (renderPlainChild name t)
        = (t.leaves.map (fun pc => valuesUnder pc.2 c)).flatten
  | name, .leaf cvs => by
    rw [renderPlainChild, PathTree.leaves]
    simp [guardedValues_renderLeafCvs]
  | name, .node cs => by
    rw [renderPlainChild, PathTree.leaves]
    simpa [CueNodes.one, CueNodes.guardedValues, CueNode.guardedValues] using
      guardedValues_renderPlainChildren c cs

theorem guardedValues_renderPlainChildren (c : Cond) : ∀ cs : PTChildren,
    CueNodes.guardedValues c (renderPlainChildren cs)
      = (cs.leaves.map (fun pc => valuesUnder pc.2 c)).flatten
  | .nil => rfl
  | .cons s t tail => by
    rw [renderPlainChildren, PTChildren.leaves, CueNodes.guardedValues_append,
      guardedValues_renderPlainChild c s t, guardedValues_renderPlainChildren c tail]
    simp [Function.comp_def]
end

theorem valuesUnder_filterCvs (cvs : List CondValue) (c c' : Cond) :
    valuesUnder (filterCvs cvs c') c = [] := by
  rw [filterCvs]
  cases h : cvs.find? (fun cv => cv.cond == some c') with
  | none => rfl
  | some cv => simp [valuesUnder]

theorem guardedValues_filtered_plain (c c' : Cond) (cs : PTChildren) :
    CueNodes.guardedValues c (renderPlainChildren (filterChildren cs c')) = [] := by
  rw [guardedValues_renderPlainChildren, filterChildren_leaves]
  simp [valuesUnder_filterCvs]

theorem topGuards_decompBlocks (name : String) (cs : PTChildren) :
    ∀ conds : List Cond, (decompBlocks name cs conds).topGuards = conds
  | [] => rfl
  | c :: rest => by
    rw [decompBlocks, CueNodes.topGuards, topGuards_decompBlocks name cs rest]

theorem unguardedValues_decompBlocks (name : String) (cs : PTChildren) :
    ∀ conds : List Cond, (decompBlocks name cs conds).unguardedValues = []
  | [] => rfl
  | c :: rest => by
    rw [decompBlocks, CueNodes.unguardedValues, CueNode.unguardedValues,
      unguardedValues_decompBlocks name cs rest]
    rfl

theorem guardedValues_decompBlocks_not_mem (name : String) (cs : PTChildren)
    (c : Cond) : ∀ conds : List Cond, c ∉ conds →
      CueNodes.guardedValues c (decompBlocks name cs conds) = []
  | [], _ => rfl
  | c' :: rest, h => by
    have hne : c' ≠ c := fun hh => h (hh ▸ List.mem_cons_self _ _)
    rw [decompBlocks, CueNodes.guardedValues, CueNode.guardedValues, if_neg hne,
      guardedValues_decompBlocks_not_mem name cs c rest
        (fun hh => h (List.mem_cons_of_mem _ hh))]
    simp [CueNodes.one, CueNodes.guardedValues, CueNode.guardedValues,
      guardedValues_filtered_plain]

theorem guardedValues_decompBlocks_mem (name : String) (cs : PTChildren)
    (c : Cond) : ∀ conds : List Cond, c ∈ conds → conds.Nodup →
      CueNodes.guardedValues c (decompBlocks name cs conds)
        = (renderPlainChildren (filterChildren cs c)).allValues := by
  intro conds
  induction conds with
  | nil => intro h; simp at h
  | cons c' rest ih =>
    intro hmem hnd
    rcases List.mem_cons.mp hmem with h | h
    · subst h
      rw [decompBlocks, CueNodes.guardedValues, CueNode.guardedValues, if_pos rfl,
        guardedValues_decompBlocks_not_mem name cs c rest
          (List.nodup_cons.mp hnd).1]
      simp [CueNodes.one, CueNodes.allValues, CueNode.allValues]
    · have hne : c' ≠ c := fun hh =>
        (List.nodup_cons.mp hnd).1 (hh ▸ h)
      rw [decompBlocks, CueNodes.guardedValues, CueNode.guardedValues, if_neg hne,
        ih h (List.nodup_cons.mp hnd).2]
      simp [CueNodes.one, CueNodes.guardedValues, CueNode.guardedValues,
        guardedValues_filtered_plain]

theorem conditionSet_nodup (t : PathTree) : (PathTree.conditionSet t).Nodup := by
  rw [PathTree.conditionSet]
  exact nodup_dedupFirst _

theorem mem_conditionSet {t : PathTree} {c : Cond} :
    c ∈ PathTree.conditionSet t ↔ ∃ pc ∈ t.leaves, c ∈ condsOf pc.2 := by
  rw [PathTree.conditionSet, mem_dedupFirst]
  simp only [List.mem_flatten, List.mem_map]
  constructor
  · rintro ⟨l, ⟨pc, hpc, rfl⟩, hcl⟩
    exact ⟨pc, hpc, hcl⟩
  · rintro ⟨pc, hpc, hcl⟩
    exact ⟨condsOf pc.2, ⟨pc, hpc, rfl⟩, hcl⟩

theorem decomposable_node_parts {cs : PTChildren}
    (h : PathTree.decomposable (.node cs) = true) :
    PathTree.fullyConditional (.node cs) = true
    ∧ ∀ pc ∈ PathTree.leaves (.node cs),
        sameCondSet (condsOf pc.2) (PathTree.conditionSet (.node cs)) = true := by
  rw [PathTree.decomposable] at h
  have h' := Bool.and_eq_true_iff.mp h
  exact ⟨h'.1, List.all_eq_true.mp h'.2⟩

theorem decomposable_node_of_parts {cs : PTChildren}
    (h1 : PathTree.fullyConditional (.node cs) = true)
    (h2 : ∀ pc ∈ PathTree.leaves (.node cs),
        sameCondSet (condsOf pc.2) (PathTree.conditionSet (.node cs)) = true) :
    PathTree.decomposable (.node cs) = true := by
  rw [PathTree.decomposable]
  exact Bool.and_eq_true_iff.mpr ⟨h1, List.all_eq_true.mpr h2⟩

theorem fullyConditional_leaves {t : PathTree}
    (h : PathTree.fullyConditional t = true) :
    ∀ pc ∈ t.leaves, allConditional pc.2 = true := by
  rw [PathTree.fullyConditional] at h
  exact List.all_eq_true.mp h

mutual
theorem unguardedValues_renderChild : ∀ (name : String) (t : PathTree),
    (renderChild name t).unguardedValues
      = (t.leaves.map (fun pc => uncondValuesOf pc.2)).flatten
  | name, .leaf cvs => by
    rw [renderChild, PathTree.leaves]
    simp [unguardedValues_renderLeafCvs]
  | name, .node cs => by
    rw [renderChild]
    by_cases hd : PathTree.decomposable (.node cs) = true
    · rw [if_pos hd, unguardedValues_decompBlocks]
      have hfc := (decomposable_node_parts hd).1
      symm
      rw [List.flatten_eq_nil_iff]
      intro xs hxs
      rcases List.mem_map.mp hxs with ⟨pc, hpc, rfl⟩
      exact uncondValuesOf_eq_nil_of_allConditional
        (fullyConditional_leaves hfc pc hpc)
    · rw [if_neg hd]
      have := unguardedValues_renderChildren cs
      simpa [CueNodes.one, CueNodes.unguardedValues, CueNode.unguardedValues,
        PathTree.leaves] using this

theorem unguardedValues_renderChildren : ∀ cs : PTChildren,
    (renderChildren cs).unguardedValues
      = (cs.leaves.map (fun pc => uncondValuesOf pc.2)).flatten
  | .nil => rfl
  | .cons s t tail => by
    rw [renderChildren, PTChildren.leaves, CueNodes.unguardedValues_append,
      unguardedValues_renderChild s t, unguardedValues_renderChildren tail]
    simp [Function.comp_def]
end

mutual
theorem guardedValues_renderChild (c : Cond) : ∀ (name : String) (t : PathTree),
    (∀ pc ∈ t.leaves, (condsOf pc.2).Nodup) →
    CueNodes.guardedValues c (renderChild name t)
      = (t.leaves.map (fun pc => valuesUnder pc.2 c)).flatten
  | name, .leaf cvs, _ => by
    rw [renderChild, PathTree.leaves]
    simp [guardedValues_renderLeafCvs]
  | name, .node cs, hnd => by
    rw [renderChild]
    by_cases hd : PathTree.decomposable (.node cs) = true
    · rw [if_pos hd]
      by_cases hc : c ∈ PathTree.conditionSet (.node cs)
      · rw [guardedValues_decompBlocks_mem name cs c _ hc
            (conditionSet_nodup _),
          allValues_renderPlainChildren, filterChildren_leaves]
        have : ∀ pc ∈ PTChildren.leaves cs,
            (filterCvs pc.2 c).map (·.value) = valuesUnder pc.2 c := by
          intro pc hpc
          exact filterCvs_values_of_nodup pc.2 c (hnd pc hpc)
        rw [List.map_map]
        refine congrArg List.flatten (List.map_congr_left ?_)
        intro pc hpc
        simpa [Function.comp_def] using this pc hpc
      · rw [guardedValues_decompBlocks_not_mem name cs c _ hc]
        symm
        rw [List.flatten_eq_nil_iff]
        intro xs hxs
        rcases List.mem_map.mp hxs with ⟨pc, hpc, rfl⟩
        refine valuesUnder_eq_nil_of_not_mem fun hcc => hc ?_
        exact mem_conditionSet.mpr ⟨pc, hpc, hcc⟩
    · rw [if_neg hd]
      have := guardedValues_renderChildren c cs hnd
      simpa [CueNodes.one, CueNodes.guardedValues, CueNode.guardedValues,
        PathTree.leaves] using this

theorem guardedValues_renderChildren (c : Cond) : ∀ cs : PTChildren,
    (∀ pc ∈ PathTree.leaves (.node cs), (condsOf pc.2).Nodup) →
    CueNodes.guardedValues c (renderChildren cs)
      = (PTChildren.leaves cs |>.map (fun pc => valuesUnder pc.2 c)).flatten
  | .nil, _ => rfl
  | .cons s t tail, hnd => by
    have hndt : ∀ pc ∈ t.leaves, (condsOf pc.2).Nodup := by
      intro pc hpc
      exact hnd (s :: pc.1, pc.2)
        (by rw [PathTree.leaves, PTChildren.leaves]
            exact List.mem_append_left _ (List.mem_map_of_mem _ hpc))
    have hndtail : ∀ pc ∈ PathTree.leaves (.node tail), (condsOf pc.2).Nodup := by
      intro pc hpc
      rw [PathTree.leaves] at hpc
      exact hnd pc
        (by rw [PathTree.leaves, PTChildren.leaves]
            exact List.mem_append_right _ hpc)
    rw [renderChildren, PTChildren.leaves, CueNodes.guardedValues_append,
      guardedValues_renderChild c s t hndt]
    have := guardedValues_renderChildren c tail hndtail
    rw [this]
    simp [Function.comp_def]
end

theorem sameCondSet_eq_true_iff {a b : List Cond} :
    sameCondSet a b = true ↔ (∀ c ∈ a, c ∈ b) ∧ (∀ c ∈ b, c ∈ a) := by
  simp [sameCondSet, List.all_eq_true, List.elem_iff, List.contains]

theorem filterCvs_value_mem {cvs : List CondValue} {c : Cond} {v : Value}
    (h : v ∈ (filterCvs cvs c).map (·.value)) : ∃ cv ∈ cvs, cv.value = v := by
  rw [filterCvs] at h
  cases hf : cvs.find? (fun cv => cv.cond == some c) with
  | none => rw [hf] at h; simp at h
  | some cv =>
    rw [hf] at h
    simp at h
    exact ⟨cv, List.mem_of_find?_eq_some hf, h.symm⟩

theorem allValues_decompBlocks_mem (name : String) (cs : PTChildren) :
    ∀ (conds : List Cond) (v : Value),
      v ∈ (decompBlocks name cs conds).allValues →
      ∃ pc ∈ PTChildren.leaves cs, ∃ cv ∈ pc.2, cv.value = v := by
  intro conds
  induction conds with
  | nil => intro v h; simp [decompBlocks, CueNodes.allValues] at h
  | cons c rest ih =>
    intro v h
    rw [decompBlocks, CueNodes.allValues] at h
    rcases List.mem_append.mp h with h | h
    · have h' : v ∈ (renderPlainChildren (filterChildren cs c)).allValues := by
        simpa [CueNode.allValues, CueNodes.allValues, CueNodes.one] using h
      rw [allValues_renderPlainChildren, filterChildren_leaves] at h'
      rcases List.mem_flatten.mp h' with ⟨xs, hxs, hv⟩
      rcases List.mem_map.mp hxs with ⟨fpc, hfpc, rfl⟩
      rcases List.mem_map.mp hfpc with ⟨pc, hpc, rfl⟩
      rcases filterCvs_value_mem (by simpa using hv) with ⟨cv, hcv, rfl⟩
      exact ⟨pc, hpc, cv, hcv, rfl⟩
    · exact ih v h

mutual
theorem allValues_renderChild_mem :
    ∀ (name : String) (t : PathTree) (v : Value),
      v ∈ (renderChild name t).allValues →
      ∃ pc ∈ t.leaves, ∃ cv ∈ pc.2, cv.value = v
  | name, .leaf cvs, v => by
    intro h
    rw [renderChild, PathTree.leaves] at *
    rw [allValues_renderLeafCvs] at h
    rcases List.mem_map.mp h with ⟨cv, hcv, rfl⟩
    exact ⟨([], cvs), List.mem_singleton_self _, cv, hcv, rfl⟩
  | name, .node cs, v => by
    intro h
    rw [renderChild] at h
    rw [PathTree.leaves]
    by_cases hd : PathTree.decomposable (.node cs) = true
    · rw [if_pos hd] at h
      exact allValues_decompBlocks_mem name cs _ v h
    · rw [if_neg hd] at h
      have h' : v ∈ (renderChildren cs).allValues := by
        simpa [CueNodes.one, CueNodes.allValues, CueNode.allValues] using h
      exact allValues_renderChildren_mem cs v h'

theorem allValues_renderChildren_mem :
    ∀ (cs : PTChildren) (v : Value),
      v ∈ (renderChildren cs).allValues →
      ∃ pc ∈ PTChildren.leaves cs, ∃ cv ∈ pc.2, cv.value = v
  | .nil, v => by intro h; simp [renderChildren, CueNodes.allValues] at h
  | .cons s t tail, v => by
    intro h
    rw [renderChildren, CueNodes.allValues_append] at h
    rw [PTChildren.leaves]
    rcases List.mem_append.mp h with h | h
    · rcases allValues_renderChild_mem s t v h with ⟨pc, hpc, cv, hcv, rfl⟩
      exact ⟨(s :: pc.1, pc.2),
        List.mem_append_left _ (List.mem_map_of_mem _ hpc), cv, hcv, rfl⟩
    · rcases allValues_renderChildren_mem tail v h with ⟨pc, hpc, cv, hcv, rfl⟩
      exact ⟨pc, List.mem_append_right _ hpc, cv, hcv, rfl⟩
end

theorem sameCondSet_refl (a : List Cond) : sameCondSet a a = true :=
  sameCondSet_eq_true_iff.mpr ⟨fun _ h => h, fun _ h => h⟩

theorem conditionSet_buildBranch (rest : List String) (cvs : List CondValue) :
    PathTree.conditionSet (buildBranch rest cvs) = dedupFirst (condsOf cvs) := by
  rw [PathTree.conditionSet, leaves_buildBranch]
  simp

theorem chainNode_leaves (s : String) (rest : List String)
    (cvs : List CondValue) :
    PathTree.leaves (.node (.cons s (buildBranch rest cvs) .nil))
      = [(s :: rest, cvs)] := by
  rw [PathTree.leaves, PTChildren.leaves, leaves_buildBranch, PTChildren.leaves]
  simp

theorem chainNode_decomposable (s : String) (rest : List String)
    (cvs : List CondValue) (hall : allConditional cvs = true)
    (hnd : (condsOf cvs).Nodup) :
    PathTree.decomposable (.node (.cons s (buildBranch rest cvs) .nil)) = true := by
  have hcset : PathTree.conditionSet (.node (.cons s (buildBranch rest cvs) .nil))
      = condsOf cvs := by
    rw [PathTree.conditionSet, chainNode_leaves]
    simpa using dedupFirst_eq_self _ hnd
  refine decomposable_node_of_parts ?_ ?_
  · rw [PathTree.fullyConditional, chainNode_leaves]
    simpa using hall
  · rw [chainNode_leaves]
    intro pc hpc
    rcases List.mem_singleton.mp hpc with rfl
    rw [hcset]
    exact sameCondSet_refl _

theorem topGuards_renderChild_chain (name : String) (cvs : List CondValue)
    (hall : allConditional cvs = true) (hnd : (condsOf cvs).Nodup) :
    ∀ rest : List String,
      (renderChild name (buildBranch rest cvs)).topGuards = condsOf cvs
  | [] => by
    rw [buildBranch, renderChild]
    exact topGuards_renderLeafCvs name cvs
  | s :: rest => by
    rw [buildBranch, renderChild,
      if_pos (chainNode_decomposable s rest cvs hall hnd),
      topGuards_decompBlocks, PathTree.conditionSet, chainNode_leaves]
    simpa using dedupFirst_eq_self _ hnd

theorem splitSegsAux_ne_nil (sep : Char) :
    ∀ (l acc : List Char), splitSegsAux sep l acc ≠ []
  | [], acc => by simp [splitSegsAux]
  | ch :: rest, acc => by
    rw [splitSegsAux]
    by_cases h : ch = sep
    · rw [if_pos h]; simp
    · rw [if_neg h]; exact splitSegsAux_ne_nil sep rest (ch :: acc)

theorem splitPath_ne_nil (p : String) : splitPath p ≠ [] :=
  splitSegsAux_ne_nil '.' p.data []

theorem buildTree_single (p : String) (cvs : List CondValue)
    (s : String) (rest : List String) (hsplit : splitPath p = s :: rest) :
    buildTree [(p, cvs)] = .node (.cons s (buildBranch rest cvs) .nil) := by
  rw [buildTree, List.foldl_cons, List.foldl_nil, hsplit, insertPath]
  rfl

theorem renderResourceBody_single (av k p : String) (cvs : List CondValue)
    (s : String) (rest : List String) (hsplit : splitPath p = s :: rest) :
    renderResourceBody ⟨av, k, [(p, cvs)]⟩
      = renderChild s (buildBranch rest cvs) := by
  rw [renderResourceBody]
  rw [buildTree_single p cvs s rest hsplit]
  show (renderChild s (buildBranch rest cvs)).append (renderChildren .nil)
      = renderChild s (buildBranch rest cvs)
  show (renderChild s (buildBranch rest cvs)).append .nil = _
  rw [CueNodes.append_nil]

theorem set_setIf_assigns (av k p : String) (c : Cond) (x y : Value) :
    (((Resource.new av k).set p x).setIf c p y).assigns
      = [(p, [⟨some c, y⟩])] := by
  simp [Resource.new, Resource.set, Resource.setIf, updateAssigns, List.filter]

theorem setIf_setIf_assigns (av k p : String) (a b : Cond) (x y : Value) :
    (((Resource.new av k).setIf a p x).setIf b p y).assigns
      = [(p, [⟨some a, x⟩, ⟨some b, y⟩])] := by
  simp [Resource.new, Resource.setIf, updateAssigns, List.filter]

/-! ## The claims -/

/-- **C1** — For every internal node of the path tree whose descendant
leaves are all conditional and all carry condValues for exactly the same set
of conditions (with each leaf's guards pairwise distinct), the generator
decomposes that node into the per-condition guarded blocks, emitted in
condition-insertion order (`conditionSet` keeps first-observed order), and
each block contains every descendant leaf with the value its condValues
record for that block's condition. -/
theorem decomposable_node_emits_per_condition_blocks
    (name : String) (cs : PTChildren)
    (hfc : PathTree.fullyConditional (.node cs) = true)
    (hsets : ∀ pc ∈ PathTree.leaves (.node cs),
        sameCondSet (condsOf pc.2) (PathTree.conditionSet (.node cs)) = true)
    (hnd : ∀ pc ∈ PathTree.leaves (.node cs), (condsOf pc.2).Nodup) :
    renderChild name (.node cs)
        = decompBlocks name cs (PathTree.conditionSet (.node cs))
    ∧ (renderChild name (.node cs)).topGuards = PathTree.conditionSet (.node cs)
    ∧ (∀ c, CueNodes.guardedValues c (renderChild name (.node cs))
          = ((PathTree.leaves (.node cs)).map
              (fun pc => valuesUnder pc.2 c)).flatten)
    ∧ ∀ pc ∈ PathTree.leaves (.node cs), ∀ cv ∈ pc.2, ∀ c, cv.cond = some c →
        cv.value ∈ CueNodes.guardedValues c (renderChild name (.node cs)) := by
  have hd := decomposable_node_of_parts hfc hsets
  have hren : renderChild name (.node cs)
      = decompBlocks name cs (PathTree.conditionSet (.node cs)) := by
    rw [renderChild, if_pos hd]
  have hguard : ∀ c, CueNodes.guardedValues c (renderChild name (.node cs))
      = ((PathTree.leaves (.node cs)).map
          (fun pc => valuesUnder pc.2 c)).flatten :=
    fun c => guardedValues_renderChild c name (.node cs) hnd
  refine ⟨hren, ?_, hguard, ?_⟩
  · rw [hren, topGuards_decompBlocks]
  · intro pc hpc cv hcv c hc
    rw [hguard c]
    refine List.mem_flatten.mpr ⟨valuesUnder pc.2 c,
      List.mem_map_of_mem _ hpc, ?_⟩
    exact List.mem_filterMap.mpr ⟨cv, hcv, by simp [hc]⟩

/-- Concrete input for the C1 witness: the `flagA`/`flagB` sibling scenario
of the decomposition tests. -/
def c1Children : PTChildren :=
  .cons "nested"
    (.node
      (.cons "child1"
        (.leaf [⟨some (.pathExists "parameter[\"flagA\"]"), .lit .str "A1"⟩,
                ⟨some (.pathExists "parameter[\"flagB\"]"), .lit .str "B1"⟩])
        (.cons "child2"
          (.leaf [⟨some (.pathExists "parameter[\"flagA\"]"), .lit .str "A2"⟩,
                  ⟨some (.pathExists "parameter[\"flagB\"]"), .lit .str "B2"⟩])
          .nil)))
    .nil

/-- Witness for C1 at the concrete sibling scenario. -/
theorem decomposable_node_emits_per_condition_blocks_witness :
    (PathTree.fullyConditional (.node c1Children) = true
      ∧ (∀ pc ∈ PathTree.leaves (.node c1Children),
          sameCondSet (condsOf pc.2) (PathTree.conditionSet (.node c1Children)) = true)
      ∧ ∀ pc ∈ PathTree.leaves (.node c1Children), (condsOf pc.2).Nodup)
    ∧ (renderChild "spec" (.node c1Children)
        = decompBlocks "spec" c1Children (PathTree.conditionSet (.node c1Children))
      ∧ (renderChild "spec" (.node c1Children)).topGuards
          = PathTree.conditionSet (.node c1Children)
      ∧ (∀ c, CueNodes.guardedValues c (renderChild "spec" (.node c1Children))
            = ((PathTree.leaves (.node c1Children)).map
                (fun pc => valuesUnder pc.2 c)).flatten)
      ∧ ∀ pc ∈ PathTree.leaves (.node c1Children), ∀ cv ∈ pc.2, ∀ c,
          cv.cond = some c →
          cv.value ∈ CueNodes.guardedValues c (renderChild "spec" (.node c1Children))) :=
  ⟨⟨by decide, by decide, by decide⟩,
    decomposable_node_emits_per_condition_blocks "spec" c1Children
      (by decide) (by decide) (by decide)⟩

/-- **C2** — For every internal node that has at least one unconditional
descendant leaf value, or a leaf whose condition set is a strict subset of
the node's full condition set, the generator does not decompose that node:
the subtree renders as a single plain struct block; the unconditional leaf
values appear unguarded (and they are exactly the unguarded values), and
every conditional leaf value appears inside an `if` guard equal to its own
condition. -/
theorem non_decomposable_node_renders_plain_block
    (name : String) (cs : PTChildren)
    (hnd : ∀ pc ∈ PathTree.leaves (.node cs), (condsOf pc.2).Nodup)
    (hbad : (∃ pc ∈ PathTree.leaves (.node cs), ∃ cv ∈ pc.2, cv.cond = none)
      ∨ (∃ pc ∈ PathTree.leaves (.node cs),
          (∀ c ∈ condsOf pc.2, c ∈ PathTree.conditionSet (.node cs))
          ∧ ∃ c ∈ PathTree.conditionSet (.node cs), c ∉ condsOf pc.2)) :
    renderChild name (.node cs)
        = CueNodes.one (.structBlock name (renderChildren cs))
    ∧ (renderChild name (.node cs)).unguardedValues
        = ((PathTree.leaves (.node cs)).map
            (fun pc => uncondValuesOf pc.2)).flatten
    ∧ ∀ pc ∈ PathTree.leaves (.node cs), ∀ cv ∈ pc.2, ∀ c, cv.cond = some c →
        cv.value ∈ CueNodes.guardedValues c (renderChild name (.node cs)) := by
  have hndec : ¬ PathTree.decomposable (.node cs) = true := by
    intro h
    obtain ⟨hfc, hsets⟩ := decomposable_node_parts h
    rcases hbad with ⟨pc, hpc, cv, hcv, hcnone⟩ | ⟨pc, hpc, _, c, hcmem, hcnot⟩
    · have := fullyConditional_leaves hfc pc hpc
      have := List.all_eq_true.mp this cv hcv
      rw [hcnone] at this
      simp at this
    · exact hcnot ((sameCondSet_eq_true_iff.mp (hsets pc hpc)).2 c hcmem)
  have hren : renderChild name (.node cs)
      = CueNodes.one (.structBlock name (renderChildren cs)) := by
    rw [renderChild, if_neg hndec]
  refine ⟨hren, unguardedValues_renderChild name (.node cs), ?_⟩
  intro pc hpc cv hcv c hc
  rw [guardedValues_renderChild c name (.node cs) hnd]
  refine List.mem_flatten.mpr ⟨valuesUnder pc.2 c,
    List.mem_map_of_mem _ hpc, ?_⟩
  exact List.mem_filterMap.mpr ⟨cv, hcv, by simp [hc]⟩

/-- Concrete input for the C2 witness: the `limits.cpu` (conditional) +
`limits.memory` (unconditional) scenario of the no-decomposition test. -/
def c2Children : PTChildren :=
  .cons "resources"
    (.node
      (.cons "limits"
        (.node
          (.cons "cpu"
            (.leaf [⟨some (.pathExists "parameter[\"cpu\"]"),
                    .paramRef "parameter.cpu"⟩])
            (.cons "memory" (.leaf [⟨none, .lit .str "128Mi"⟩]) .nil)))
        .nil))
    .nil

/-- Witness for C2 at the concrete mixed conditional/unconditional
scenario. -/
theorem non_decomposable_node_renders_plain_block_witness :
    ((∀ pc ∈ PathTree.leaves (.node c2Children), (condsOf pc.2).Nodup)
      ∧ ((∃ pc ∈ PathTree.leaves (.node c2Children), ∃ cv ∈ pc.2, cv.cond = none)
        ∨ (∃ pc ∈ PathTree.leaves (.node c2Children),
            (∀ c ∈ condsOf pc.2, c ∈ PathTree.conditionSet (.node c2Children))
            ∧ ∃ c ∈ PathTree.conditionSet (.node c2Children),
                c ∉ condsOf pc.2)))
    ∧ (renderChild "spec" (.node c2Children)
        = CueNodes.one (.structBlock "spec" (renderChildren c2Children))
      ∧ (renderChild "spec" (.node c2Children)).unguardedValues
          = ((PathTree.leaves (.node c2Children)).map
              (fun pc => uncondValuesOf pc.2)).flatten
      ∧ ∀ pc ∈ PathTree.leaves (.node c2Children), ∀ cv ∈ pc.2, ∀ c,
          cv.cond = some c →
          cv.value ∈ CueNodes.guardedValues c (renderChild "spec" (.node c2Children))) :=
  ⟨⟨by decide, by decide⟩,
    non_decomposable_node_renders_plain_block "spec" c2Children
      (by decide) (by decide)⟩

/-- **C3** — For every path, an unconditional `Set(path, x)` followed by a
`SetIf(cond, path, y)` on the same path leaves the path with the single
conditional condValue `(cond, y)`; the rendered output carries the path only
in its conditional form — exactly one top-level guard, equal to `cond`, no
unguarded value, the `cond`-guarded value being `y` — and the prior
unconditional value `x` does not appear anywhere in the output. -/
theorem conditional_write_replaces_unconditional (av k p : String) (c : Cond)
    (x y : Value) (hxy : x ≠ y) :
    (((Resource.new av k).set p x).setIf c p y).assigns = [(p, [⟨some c, y⟩])]
    ∧ (renderResourceBody (((Resource.new av k).set p x).setIf c p y)).topGuards
        = [c]
    ∧ (renderResourceBody
        (((Resource.new av k).set p x).setIf c p y)).unguardedValues = []
    ∧ CueNodes.guardedValues c
        (renderResourceBody (((Resource.new av k).set p x).setIf c p y)) = [y]
    ∧ x ∉ (renderResourceBody
        (((Resource.new av k).set p x).setIf c p y)).allValues := by
  have hassigns := set_setIf_assigns av k p c x y
  obtain ⟨s, rest, hsplit⟩ : ∃ s rest, splitPath p = s :: rest := by
    cases h : splitPath p with
    | nil => exact absurd h (splitPath_ne_nil p)
    | cons s rest => exact ⟨s, rest, rfl⟩
  have hbody : renderResourceBody (((Resource.new av k).set p x).setIf c p y)
      = renderChild s (buildBranch rest [⟨some c, y⟩]) := by
    have : (((Resource.new av k).set p x).setIf c p y)
        = ⟨av, k, [(p, [⟨some c, y⟩])]⟩ := by
      have h1 : (((Resource.new av k).set p x).setIf c p y).apiVersion = av := rfl
      have h2 : (((Resource.new av k).set p x).setIf c p y).kind = k := rfl
      cases hres : ((Resource.new av k).set p x).setIf c p y
      simp only [Resource.mk.injEq]
      rw [hres] at hassigns h1 h2
      exact ⟨h1, h2, hassigns⟩
    rw [this]
    exact renderResourceBody_single av k p [⟨some c, y⟩] s rest hsplit
  have hall : allConditional [CondValue.mk (some c) y] = true := by
    simp [allConditional]
  have hnd : (condsOf [CondValue.mk (some c) y]).Nodup := by
    simp [condsOf]
  have hleaves := leaves_buildBranch rest [CondValue.mk (some c) y]
  refine ⟨hassigns, ?_, ?_, ?_, ?_⟩
  · rw [hbody, topGuards_renderChild_chain s _ hall hnd rest]
    rfl
  · rw [hbody, unguardedValues_renderChild, hleaves]
    rfl
  · rw [hbody, guardedValues_renderChild c s _ (by
      rw [hleaves]
      intro pc hpc
      rcases List.mem_singleton.mp hpc with rfl
      exact hnd), hleaves]
    simp [valuesUnder]
  · rw [hbody]
    intro hmem
    rcases allValues_renderChild_mem s _ x hmem with ⟨pc, hpc, cv, hcv, hval⟩
    rw [hleaves] at hpc
    rcases List.mem_singleton.mp hpc with rfl
    rcases List.mem_singleton.mp hcv with rfl
    exact hxy hval.symm

/-- Witness for C3 at the concrete unconditional-then-conditional
scenario. -/
theorem conditional_write_replaces_unconditional_witness :
    (Value.lit .str "default" ≠ Value.paramRef "parameter.opt")
    ∧ ((((Resource.new "v1" "Pod").set "spec.field" (.lit .str "default")).setIf
          (.pathExists "parameter[\"opt\"]") "spec.field"
          (.paramRef "parameter.opt")).assigns
        = [("spec.field", [⟨some (.pathExists "parameter[\"opt\"]"),
            .paramRef "parameter.opt"⟩])]
      ∧ (renderResourceBody
          (((Resource.new "v1" "Pod").set "spec.field"
              (.lit .str "default")).setIf
            (.pathExists "parameter[\"opt\"]") "spec.field"
            (.paramRef "parameter.opt"))).topGuards
          = [.pathExists "parameter[\"opt\"]"]
      ∧ (renderResourceBody
          (((Resource.new "v1" "Pod").set "spec.field"
              (.lit .str "default")).setIf
            (.pathExists "parameter[\"opt\"]") "spec.field"
            (.paramRef "parameter.opt"))).unguardedValues = []
      ∧ CueNodes.guardedValues (.pathExists "parameter[\"opt\"]")
          (renderResourceBody
            (((Resource.new "v1" "Pod").set "spec.field"
                (.lit .str "default")).setIf
              (.pathExists "parameter[\"opt\"]") "spec.field"
              (.paramRef "parameter.opt"))) = [.paramRef "parameter.opt"]
      ∧ Value.lit .str "default" ∉ (renderResourceBody
          (((Resource.new "v1" "Pod").set "spec.field"
              (.lit .str "default")).setIf
            (.pathExists "parameter[\"opt\"]") "spec.field"
            (.paramRef "parameter.opt"))).allValues) :=
  ⟨by decide,
    conditional_write_replaces_unconditional "v1" "Pod" "spec.field"
      (.pathExists "parameter[\"opt\"]") (.lit .str "default")
      (.paramRef "parameter.opt") (by decide)⟩

/-- **C4** — For every path with no unconditional write and two conditional
writes `SetIf(a, path, x)` then `SetIf(b, path, y)` under distinct
conditions, the path carries both condValues in order; the rendered output
contains the path inside an `a`-guarded block with value `x` and inside a
`b`-guarded block with value `y` (the two top-level guards, in insertion
order), and the unconditional form of the field never appears. -/
theorem two_conditional_writes_render_both_guarded (av k p : String)
    (a b : Cond) (x y : Value) (hab : a ≠ b) :
    (((Resource.new av k).setIf a p x).setIf b p y).assigns
        = [(p, [⟨some a, x⟩, ⟨some b, y⟩])]
    ∧ (renderResourceBody
        (((Resource.new av k).setIf a p x).setIf b p y)).topGuards = [a, b]
    ∧ (renderResourceBody
        (((Resource.new av k).setIf a p x).setIf b p y)).unguardedValues = []
    ∧ CueNodes.guardedValues a
        (renderResourceBody (((Resource.new av k).setIf a p x).setIf b p y))
        = [x]
    ∧ CueNodes.guardedValues b
        (renderResourceBody (((Resource.new av k).setIf a p x).setIf b p y))
        = [y] := by
  have hassigns := setIf_setIf_assigns av k p a b x y
  obtain ⟨s, rest, hsplit⟩ : ∃ s rest, splitPath p = s :: rest := by
    cases h : splitPath p with
    | nil => exact absurd h (splitPath_ne_nil p)
    | cons s rest => exact ⟨s, rest, rfl⟩
  set cvs : List CondValue := [⟨some a, x⟩, ⟨some b, y⟩] with hcvs
  have hbody : renderResourceBody (((Resource.new av k).setIf a p x).setIf b p y)
      = renderChild s (buildBranch rest cvs) := by
    have : (((Resource.new av k).setIf a p x).setIf b p y)
        = ⟨av, k, [(p, cvs)]⟩ := by
      have h1 : (((Resource.new av k).setIf a p x).setIf b p y).apiVersion
          = av := rfl
      have h2 : (((Resource.new av k).setIf a p x).setIf b p y).kind = k := rfl
      cases hres : ((Resource.new av k).setIf a p x).setIf b p y
      simp only [Resource.mk.injEq]
      rw [hres] at hassigns h1 h2
      exact ⟨h1, h2, hassigns⟩
    rw [this]
    exact renderResourceBody_single av k p cvs s rest hsplit
  have hall : allConditional cvs = true := by simp [allConditional, hcvs]
  have hnd : (condsOf cvs).Nodup := by
    simp [condsOf, hcvs, List.filterMap_cons]
    exact hab
  have hcondsOf : condsOf cvs = [a, b] := by
    simp [condsOf, hcvs, List.filterMap_cons]
  have hleaves := leaves_buildBranch rest cvs
  have hndleaves : ∀ pc ∈ (buildBranch rest cvs).leaves, (condsOf pc.2).Nodup := by
    rw [hleaves]
    intro pc hpc
    rcases List.mem_singleton.mp hpc with rfl
    exact hnd
  refine ⟨hassigns, ?_, ?_, ?_, ?_⟩
  · rw [hbody, topGuards_renderChild_chain s _ hall hnd rest, hcondsOf]
  · rw [hbody, unguardedValues_renderChild, hleaves]
    simp [uncondValuesOf, hcvs, List.filterMap_cons]
  · rw [hbody, guardedValues_renderChild a s _ hndleaves, hleaves]
    simp [valuesUnder, hcvs, List.filterMap_cons, hab, Ne.symm hab]
  · rw [hbody, guardedValues_renderChild b s _ hndleaves, hleaves]
    simp [valuesUnder, hcvs, List.filterMap_cons, hab, Ne.symm hab]

/-- Witness for C4 at the concrete two-conditions scenario of the
multi-conditional leaf tests. -/
theorem two_conditional_writes_render_both_guarded_witness :
    (Cond.pathExists "parameter[\"volumeMounts\"]"
        ≠ Cond.pathExists "parameter[\"volumes\"]")
    ∧ ((((Resource.new "batch/v1" "Job").setIf
          (.pathExists "parameter[\"volumeMounts\"]") "spec.vm"
          (.lit .str "mountsArray")).setIf
          (.pathExists "parameter[\"volumes\"]") "spec.vm"
          (.lit .str "volumesArray")).assigns
        = [("spec.vm",
            [⟨some (.pathExists "parameter[\"volumeMounts\"]"),
              .lit .str "mountsArray"⟩,
             ⟨some (.pathExists "parameter[\"volumes\"]"),
              .lit .str "volumesArray"⟩])]
      ∧ (renderResourceBody
          (((Resource.new "batch/v1" "Job").setIf
              (.pathExists "parameter[\"volumeMounts\"]") "spec.vm"
              (.lit .str "mountsArray")).setIf
            (.pathExists "parameter[\"volumes\"]") "spec.vm"
            (.lit .str "volumesArray"))).topGuards
          = [.pathExists "parameter[\"volumeMounts\"]",
             .pathExists "parameter[\"volumes\"]"]
      ∧ (renderResourceBody
          (((Resource.new "batch/v1" "Job").setIf
              (.pathExists "parameter[\"volumeMounts\"]") "spec.vm"
              (.lit .str "mountsArray")).setIf
            (.pathExists "parameter[\"volumes\"]") "spec.vm"
            (.lit .str "volumesArray"))).unguardedValues = []
      ∧ CueNodes.guardedValues (.pathExists "parameter[\"volumeMounts\"]")
          (renderResourceBody
            (((Resource.new "batch/v1" "Job").setIf
                (.pathExists "parameter[\"volumeMounts\"]") "spec.vm"
                (.lit .str "mountsArray")).setIf
              (.pathExists "parameter[\"volumes\"]") "spec.vm"
              (.lit .str "volumesArray"))) = [.lit .str "mountsArray"]
      ∧ CueNodes.guardedValues (.pathExists "parameter[\"volumes\"]")
          (renderResourceBody
            (((Resource.new "batch/v1" "Job").setIf
                (.pathExists "parameter[\"volumeMounts\"]") "spec.vm"
                (.lit .str "mountsArray")).setIf
              (.pathExists "parameter[\"volumes\"]") "spec.vm"
              (.lit .str "volumesArray"))) = [.lit .str "volumesArray"]) :=
  ⟨by decide,
    two_conditional_writes_render_both_guarded "batch/v1" "Job" "spec.vm"
      (.pathExists "parameter[\"volumeMounts\"]")
      (.pathExists "parameter[\"volumes\"]")
      (.lit .str "mountsArray") (.lit .str "volumesArray") (by decide)⟩

theorem keysOf_nodup_of_perm {β : Type} {l1 l2 : List (String × β)}
    (hp : l1.Perm l2) (hnd : (keysOf l1).Nodup) : (keysOf l2).Nodup :=
  (List.Perm.nodup_iff (List.Perm.map Prod.fst hp)).mp hnd

theorem sortByKey_sorted {β : Type} (l : List (String × β)) :
    (sortByKey l).Sorted (keyLe (β := β)) :=
  List.sorted_insertionSort keyLe l

theorem sortByKey_perm {β : Type} (l : List (String × β)) :
    (sortByKey l).Perm l :=
  List.perm_insertionSort keyLe l

theorem sorted_strict_of_keys_nodup {β : Type} {l : List (String × β)}
    (hs : l.Sorted (keyLe (β := β))) (hnd : (keysOf l).Nodup) :
    l.Sorted (keyLt (β := β)) := by
  have hne : l.Pairwise (fun a b : String × β => a.1 ≠ b.1) :=
    (List.pairwise_map.mp hnd)
  have := List.Pairwise.and hs hne
  exact this.imp (fun h => lt_of_le_of_ne h.1 h.2)

theorem sortByKey_eq_of_perm {β : Type} {l1 l2 : List (String × β)}
    (hp : l1.Perm l2) (hnd : (keysOf l1).Nodup) :
    sortByKey l1 = sortByKey l2 := by
  have hnd2 := keysOf_nodup_of_perm hp hnd
  have hperm : (sortByKey l1).Perm (sortByKey l2) :=
    ((sortByKey_perm l1).trans hp).trans (sortByKey_perm l2).symm
  have hs1 : (sortByKey l1).Sorted (keyLt (β := β)) :=
    sorted_strict_of_keys_nodup (sortByKey_sorted l1)
      ((List.Perm.nodup_iff (List.Perm.map Prod.fst (sortByKey_perm l1))).mpr hnd)
  have hs2 : (sortByKey l2).Sorted (keyLt (β := β)) :=
    sorted_strict_of_keys_nodup (sortByKey_sorted l2)
      ((List.Perm.nodup_iff (List.Perm.map Prod.fst (sortByKey_perm l2))).mpr hnd2)
  exact List.eq_of_perm_of_sorted hperm hs1 hs2

theorem renderFieldPairs_ofList : ∀ l : List (String × Value),
    renderFieldPairs (VFields.ofList l)
      = l.map (fun p => (p.1, renderValue p.2))
  | [] => rfl
  | (n, v) :: rest => by
    rw [VFields.ofList, renderFieldPairs, renderFieldPairs_ofList rest,
      List.map_cons]

theorem keysOf_map_rendered (l : List (String × Value)) :
    keysOf (l.map (fun p => (p.1, renderValue p.2))) = keysOf l := by
  simp [keysOf, Function.comp_def]

/-- **C5** — The generator is a pure function of the finished graph (running
it twice on the same unmodified component produces byte-identical output),
and its output does not depend on the iteration order of the
unordered-container inputs: permuting the field map of an `InlineArray`
value or of a `FieldMap` (both supplied as Go maps, so with distinct keys)
leaves the rendered text unchanged. -/
theorem generator_deterministic_and_map_order_independent :
    (∀ comp : Component,
      generateFullDefinition comp = generateFullDefinition comp)
    ∧ (∀ l1 l2 : List (String × Value), l1.Perm l2 → (keysOf l1).Nodup →
        renderValue (.inlineArray (VFields.ofList l1))
          = renderValue (.inlineArray (VFields.ofList l2)))
    ∧ (∀ (varName : String) (fm1 fm2 : List (String × MapEntry)),
        fm1.Perm fm2 → (keysOf fm1).Nodup →
        renderFieldMap varName fm1 = renderFieldMap varName fm2) := by
  refine ⟨fun _ => rfl, ?_, ?_⟩
  · intro l1 l2 hp hnd
    rw [renderValue, renderValue, renderFieldPairs_ofList,
      renderFieldPairs_ofList]
    have hp' : (l1.map (fun p => (p.1, renderValue p.2))).Perm
        (l2.map (fun p => (p.1, renderValue p.2))) := hp.map _
    have hnd' : (keysOf (l1.map (fun p => (p.1, renderValue p.2)))).Nodup := by
      rw [keysOf_map_rendered]; exact hnd
    rw [sortByKey_eq_of_perm hp' hnd']
  · intro varName fm1 fm2 hp hnd
    rw [renderFieldMap, renderFieldMap, sortByKey_eq_of_perm hp hnd]

/-- Witness for C5: two presentation orders of the same two-field
`InlineArray` map render identically. -/
theorem generator_deterministic_and_map_order_independent_witness :
    (([("containerPort", Value.paramRef "parameter.port"),
       ("protocol", Value.lit .str "TCP")] :
        List (String × Value)).Perm
      [("protocol", Value.lit .str "TCP"),
       ("containerPort", Value.paramRef "parameter.port")]
      ∧ (keysOf ([("containerPort", Value.paramRef "parameter.port"),
          ("protocol", Value.lit .str "TCP")] :
            List (String × Value))).Nodup)
    ∧ renderValue (.inlineArray (VFields.ofList
        [("containerPort", Value.paramRef "parameter.port"),
         ("protocol", Value.lit .str "TCP")]))
      = renderValue (.inlineArray (VFields.ofList
        [("protocol", Value.lit .str "TCP"),
         ("containerPort", Value.paramRef "parameter.port")])) :=
  ⟨⟨by decide, by decide⟩,
    generator_deterministic_and_map_order_independent.2.1
      [("containerPort", Value.paramRef "parameter.port"),
       ("protocol", Value.lit .str "TCP")]
      [("protocol", Value.lit .str "TCP"),
       ("containerPort", Value.paramRef "parameter.port")]
      (by decide) (by decide)⟩

/-- **C6** — A parameter renders with the trailing optional marker exactly
when (not required and no default) or (force-optional and has default); the
declaration line carries `?:` exactly when the marker holds, and a parameter
with a default that is not force-optional renders as an always-present field
with a default union `*default | type` and no marker. -/
theorem param_optional_marker_iff (p : ParamSpec) :
    (hasOptionalMark p
      = ((!p.required && p.default.isNone) || (p.forceOptional && p.default.isSome)))
    ∧ (hasOptionalMark p = true →
        renderParamDecl p = paramDirectives p ++ p.name ++ "?: " ++ paramRhs p)
    ∧ (hasOptionalMark p = false →
        renderParamDecl p = paramDirectives p ++ p.name ++ ": " ++ paramRhs p)
    ∧ ∀ d, p.default = some d → p.forceOptional = false →
        hasOptionalMark p = false
        ∧ renderParamDecl p
          = paramDirectives p ++ p.name ++ ": "
              ++ ("*" ++ renderValue d ++ " | " ++ baseTypeStr p) := by
  refine ⟨?_, ?_, ?_, ?_⟩
  · rw [hasOptionalMark]
    cases hd : p.default <;> cases hr : p.required
      <;> cases hf : p.forceOptional <;> simp [hd, hr, hf]
  · intro h
    rw [renderParamDecl, if_pos h]
  · intro h
    rw [renderParamDecl, if_neg (by rw [h]; simp)]
  · intro d hd hf
    have hmark : hasOptionalMark p = false := by
      rw [hasOptionalMark, hd]
      simpa using hf
    refine ⟨hmark, ?_⟩
    rw [renderParamDecl, if_neg (by rw [hmark]; simp), paramRhs, hd]

/-- Concrete input for the C6 witness: a defaulted enum parameter that is
not force-optional (renders always-present). -/
def c6NormalParam : ParamSpec :=
  .mk "normalDefault" .enum false (some (.lit .str "Honor")) none none false
    false [.lit .str "Honor", .lit .str "Ignore"] .nil .nil

/-- Concrete input for the C6 witness: the same parameter marked
force-optional (keeps the marker despite the default). -/
def c6ForceOptionalParam : ParamSpec :=
  .mk "optionalDefault" .enum false (some (.lit .str "Honor")) none none false
    true [.lit .str "Honor", .lit .str "Ignore"] .nil .nil

/-- Witness for C6 at the defaulted / force-optional parameter pair of the
parameter schema tests. -/
theorem param_optional_marker_iff_witness :
    (hasOptionalMark c6NormalParam = false
      ∧ renderParamDecl c6NormalParam
          = paramDirectives c6NormalParam ++ c6NormalParam.name ++ ": "
              ++ paramRhs c6NormalParam)
    ∧ (hasOptionalMark c6ForceOptionalParam = true
      ∧ renderParamDecl c6ForceOptionalParam
          = paramDirectives c6ForceOptionalParam ++ c6ForceOptionalParam.name
              ++ "?: " ++ paramRhs c6ForceOptionalParam) :=
  ⟨⟨by decide, (param_optional_marker_iff c6NormalParam).2.2.1 (by decide)⟩,
   ⟨by decide, (param_optional_marker_iff c6ForceOptionalParam).2.1 (by decide)⟩⟩

theorem renderItemOps_append (varName : String) : ∀ xs ys : ItemOps,
    renderItemOps varName (xs.append ys)
      = (renderItemOps varName xs).append (renderItemOps varName ys)
  | .nil, ys => rfl
  | .cons op xs, ys => by
    rw [ItemOps.append, renderItemOps, renderItemOps,
      renderItemOps_append varName xs ys]
    rfl

theorem countFieldGuard_append (v f : String) (neg : Bool) :
    ∀ xs ys : CueNodes,
      countFieldGuard v f neg (xs.append ys)
        = countFieldGuard v f neg xs + countFieldGuard v f neg ys
  | .nil, ys => by rw [CueNodes.append, countFieldGuard, Nat.zero_add]
  | .cons x xs, ys => by
    rw [CueNodes.append, countFieldGuard, countFieldGuard,
      countFieldGuard_append v f neg xs ys, Nat.add_assoc]

theorem nodeFieldGuard_renderItemOp_zero (v f : String) (neg : Bool)
    (op : ItemOp) (h : opRendersFieldGuard v f op = false) :
    nodeFieldGuard v f neg (renderItemOp v op) = 0 := by
  cases op with
  | set g val => rfl
  | setDefault g val th => rfl
  | letOp n val => rfl
  | ifOp c ops =>
    rw [renderItemOp]
    cases c with
    | fieldExists v2 g n2 =>
      rw [nodeFieldGuard]
      rw [opRendersFieldGuard] at h
      rw [if_neg]
      rintro ⟨rfl, rfl, rfl⟩
      rcases n2 with _ | _ <;> simp at h
    | cmp op l r => rfl
    | and items => rfl
    | or items => rfl
    | not c => rfl
    | pathExists p => rfl
  | ifFieldSet g ops =>
    rw [opRendersFieldGuard] at h
    rw [renderItemOp, nodeFieldGuard, if_neg]
    rintro ⟨-, rfl, -⟩
    simp at h
  | ifFieldNotSet g ops =>
    rw [opRendersFieldGuard] at h
    rw [renderItemOp, nodeFieldGuard, if_neg]
    rintro ⟨-, rfl, -⟩
    simp at h

theorem countFieldGuard_free_zero (v f : String) (neg : Bool) :
    ∀ ops : ItemOps, opsFieldGuardFree v f ops = true →
      countFieldGuard v f neg (renderItemOps v ops) = 0
  | .nil, _ => rfl
  | .cons op tail, h => by
    rw [opsFieldGuardFree, Bool.and_eq_true, Bool.not_eq_true'] at h
    rw [renderItemOps, countFieldGuard,
      nodeFieldGuard_renderItemOp_zero v f neg op h.1,
      countFieldGuard_free_zero v f neg tail h.2]

/-- **C7** — When an item records `IfSet(f, …)` and `IfNotSet(f, …)` for the
same field `f` (and no other operation guards on `f`), the generator renders
them as a single if/else construct: one positive existence test immediately
followed by the complementary negative test, and the output carries exactly
one guard of each polarity on `f` — never two independent ifs of the same
polarity. -/
theorem ifset_ifnotset_single_if_else
    (varName f : String) (bodyA bodyB : ItemOps) (l1 l2 : ItemOps)
    (h1 : opsFieldGuardFree varName f l1 = true)
    (h2 : opsFieldGuardFree varName f l2 = true) :
    renderItemOps varName
        (l1.append (.cons (.ifFieldSet f bodyA) (.cons (.ifFieldNotSet f bodyB) l2)))
      = (renderItemOps varName l1).append
          (.cons (.ifBlock (.fieldExists varName f false)
              (renderItemOps varName bodyA))
            (.cons (.ifBlock (.fieldExists varName f true)
                (renderItemOps varName bodyB))
              (renderItemOps varName l2)))
    ∧ countFieldGuard varName f false
        (renderItemOps varName
          (l1.append
            (.cons (.ifFieldSet f bodyA) (.cons (.ifFieldNotSet f bodyB) l2)))) = 1
    ∧ countFieldGuard varName f true
        (renderItemOps varName
          (l1.append
            (.cons (.ifFieldSet f bodyA) (.cons (.ifFieldNotSet f bodyB) l2)))) = 1 := by
  have hren : renderItemOps varName
      (l1.append (.cons (.ifFieldSet f bodyA) (.cons (.ifFieldNotSet f bodyB) l2)))
      = (renderItemOps varName l1).append
          (.cons (.ifBlock (.fieldExists varName f false)
              (renderItemOps varName bodyA))
            (.cons (.ifBlock (.fieldExists varName f true)
                (renderItemOps varName bodyB))
              (renderItemOps varName l2))) := by
    rw [renderItemOps_append]
    rfl
  refine ⟨hren, ?_, ?_⟩
  · rw [hren, countFieldGuard_append,
      countFieldGuard_free_zero varName f false l1 h1, countFieldGuard,
      countFieldGuard, countFieldGuard_free_zero varName f false l2 h2]
    simp [nodeFieldGuard]
  · rw [hren, countFieldGuard_append,
      countFieldGuard_free_zero varName f true l1 h1, countFieldGuard,
      countFieldGuard, countFieldGuard_free_zero varName f true l2 h2]
    simp [nodeFieldGuard]

/-- Witness for C7 at the `containerPort` if/else scenario of the array
builder tests. -/
theorem ifset_ifnotset_single_if_else_witness :
    (opsFieldGuardFree "v" "containerPort" .nil = true
      ∧ opsFieldGuardFree "v" "containerPort" .nil = true)
    ∧ (renderItemOps "v"
        (ItemOps.append .nil
          (.cons (.ifFieldSet "containerPort"
              (.cons (.set "containerPort" (.fieldRef "v" "containerPort")) .nil))
            (.cons (.ifFieldNotSet "containerPort"
                (.cons (.set "containerPort" (.fieldRef "v" "port")) .nil))
              .nil)))
        = (renderItemOps "v" .nil).append
            (.cons (.ifBlock (.fieldExists "v" "containerPort" false)
                (renderItemOps "v"
                  (.cons (.set "containerPort" (.fieldRef "v" "containerPort")) .nil)))
              (.cons (.ifBlock (.fieldExists "v" "containerPort" true)
                  (renderItemOps "v"
                    (.cons (.set "containerPort" (.fieldRef "v" "port")) .nil)))
                (renderItemOps "v" .nil)))
      ∧ countFieldGuard "v" "containerPort" false
          (renderItemOps "v"
            (ItemOps.append .nil
              (.cons (.ifFieldSet "containerPort"
                  (.cons (.set "containerPort" (.fieldRef "v" "containerPort")) .nil))
                (.cons (.ifFieldNotSet "containerPort"
                    (.cons (.set "containerPort" (.fieldRef "v" "port")) .nil))
                  .nil)))) = 1
      ∧ countFieldGuard "v" "containerPort" true
          (renderItemOps "v"
            (ItemOps.append .nil
              (.cons (.ifFieldSet "containerPort"
                  (.cons (.set "containerPort" (.fieldRef "v" "containerPort")) .nil))
                (.cons (.ifFieldNotSet "containerPort"
                    (.cons (.set "containerPort" (.fieldRef "v" "port")) .nil))
                  .nil)))) = 1) :=
  ⟨⟨by decide, by decide⟩,
    ifset_ifnotset_single_if_else "v" "containerPort"
      (.cons (.set "containerPort" (.fieldRef "v" "containerPort")) .nil)
      (.cons (.set "containerPort" (.fieldRef "v" "port")) .nil)
      .nil .nil (by decide) (by decide)⟩

theorem variantNames_eq_map_fst : ∀ vs : VariantList,
    variantNames vs = (variantsToList vs).map Prod.fst
  | .nil => rfl
  | .cons n fs tail => by
    rw [variantNames, variantsToList, List.map_cons,
      variantNames_eq_map_fst tail]

theorem oneOfBlocks_eq_filter (discName : String) : ∀ vs : VariantList,
    oneOfBlocks discName vs
      = (variantsToList vs).filter (fun pr => pr.2 != ParamList.nil)
  | .nil => rfl
  | .cons n fs tail => by
    rw [oneOfBlocks, variantsToList, oneOfBlocks_eq_filter discName tail,
      List.filter_cons]
    by_cases h : fs = ParamList.nil
    · rw [if_pos h, if_neg]
      simp [h]
    · rw [if_neg h, if_pos]
      simpa using h

/-- **C8** — For every OneOf parameter, the discriminator union contains
exactly the variant names, with the declared default placed first (it is the
starred literal of the rendered line); and there is exactly one conditional
block per variant with at least one field — a variant's pair is a block iff
its field list is non-empty, block names are pairwise distinct, and
variants with zero fields produce no block. -/
theorem oneof_discriminator_union_and_variant_blocks
    (discName : String) (defName : Option String) (vs : VariantList)
    (hnd : (variantNames vs).Nodup)
    (hdef : (defName.all fun d => (variantNames vs).contains d) = true) :
    (∀ n, n ∈ oneOfUnionOrder defName (variantNames vs) ↔ n ∈ variantNames vs)
    ∧ (∀ d, defName = some d →
        oneOfUnionOrder defName (variantNames vs)
          = d :: (variantNames vs).erase d)
    ∧ oneOfBlocks discName vs
        = (variantsToList vs).filter (fun pr => pr.2 != ParamList.nil)
    ∧ (∀ pr ∈ variantsToList vs,
        (pr ∈ oneOfBlocks discName vs ↔ pr.2 ≠ ParamList.nil))
    ∧ ((oneOfBlocks discName vs).map Prod.fst).Nodup := by
  have hblocks := oneOfBlocks_eq_filter discName vs
  refine ⟨?_, ?_, hblocks, ?_, ?_⟩
  · intro n
    cases hdn : defName with
    | none => rw [oneOfUnionOrder]
    | some d =>
      have hd : d ∈ variantNames vs := by
        rw [hdn] at hdef
        simpa [List.elem_iff, List.contains] using hdef
      rw [oneOfUnionOrder, if_pos hd]
      constructor
      · intro h
        rcases List.mem_cons.mp h with rfl | h
        · exact hd
        · exact List.erase_subset _ _ h
      · intro h
        by_cases hnd' : n = d
        · exact hnd' ▸ List.mem_cons_self _ _
        · exact List.mem_cons_of_mem _
            ((List.mem_erase_of_ne hnd').mpr h)
  · intro d hdn
    have hd : d ∈ variantNames vs := by
      rw [hdn] at hdef
      simpa [List.elem_iff, List.contains] using hdef
    rw [hdn, oneOfUnionOrder, if_pos hd]
  · intro pr hpr
    rw [hblocks]
    constructor
    · intro h
      have := List.of_mem_filter h
      simpa using this
    · intro h
      exact List.mem_filter.mpr ⟨hpr, by simpa using h⟩
  · rw [hblocks]
    have hsub : List.Sublist
        (((variantsToList vs).filter
          (fun pr => pr.2 != ParamList.nil)).map Prod.fst)
        ((variantsToList vs).map Prod.fst) :=
      ((variantsToList vs).filter_sublist).map Prod.fst
    rw [variantNames_eq_map_fst] at hnd
    exact hnd.sublist hsub

/-- Concrete variants for the C8 witness: the empty `simple` variant and the
non-empty `complex` variant of the OneOf tests. -/
def c8Variants : VariantList :=
  .cons "simple" .nil
    (.cons "complex"
      (.cons (.mk "config" .string true none none none false false [] .nil .nil)
        .nil)
      .nil)

/-- Witness for C8 at the empty/non-empty variant pair (with a default on
the non-empty variant). -/
theorem oneof_discriminator_union_and_variant_blocks_witness :
    ((variantNames c8Variants).Nodup
      ∧ ((some "complex").all
          fun d => (variantNames c8Variants).contains d) = true)
    ∧ ((∀ n, n ∈ oneOfUnionOrder (some "complex") (variantNames c8Variants)
          ↔ n ∈ variantNames c8Variants)
      ∧ (∀ d, (some "complex" : Option String) = some d →
          oneOfUnionOrder (some "complex") (variantNames c8Variants)
            = d :: (variantNames c8Variants).erase d)
      ∧ oneOfBlocks "kind" c8Variants
          = (variantsToList c8Variants).filter (fun pr => pr.2 != ParamList.nil)
      ∧ (∀ pr ∈ variantsToList c8Variants,
          (pr ∈ oneOfBlocks "kind" c8Variants ↔ pr.2 ≠ ParamList.nil))
      ∧ ((oneOfBlocks "kind" c8Variants).map Prod.fst).Nodup) :=
  ⟨⟨by decide, by decide⟩,
    oneof_discriminator_union_and_variant_blocks "kind" (some "complex")
      c8Variants (by decide) (by decide)⟩

theorem countDefaultFields_append : ∀ xs ys : CueNodes,
    countDefaultFields (xs.append ys)
      = countDefaultFields xs + countDefaultFields ys
  | .nil, ys => by rw [CueNodes.append, countDefaultFields, Nat.zero_add]
  | .cons x xs, ys => by
    rw [CueNodes.append, countDefaultFields, countDefaultFields,
      countDefaultFields_append xs ys, Nat.add_assoc]

theorem countDefaultFields_renderMapEntry (varName : String)
    (e : String × MapEntry) :
    countDefaultFields (renderMapEntry varName e) = 0 := by
  rcases e with ⟨name, entry⟩
  cases entry <;> rfl

theorem countDefaultFields_concat_zero :
    ∀ l : List CueNodes, (∀ ns ∈ l, countDefaultFields ns = 0) →
      countDefaultFields (concatNodes l) = 0
  | [], _ => rfl
  | ns :: rest, h => by
    rw [concatNodes, countDefaultFields_append,
      h ns (List.mem_cons_self _ _),
      countDefaultFields_concat_zero rest
        (fun ns' h' => h ns' (List.mem_cons_of_mem _ h'))]

theorem mem_toList_concatNodes {x : CueNode} :
    ∀ {l : List CueNodes} {ns : CueNodes}, ns ∈ l → x ∈ ns.toList →
      x ∈ (concatNodes l).toList := by
  intro l
  induction l with
  | nil => intro ns h; simp at h
  | cons ns' rest ih =>
    intro ns h hx
    rw [concatNodes, CueNodes.toList_append]
    rcases List.mem_cons.mp h with rfl | h
    · exact List.mem_append_left _ hx
    · exact List.mem_append_right _ (ih h hx)

/-- **C9** — A field mapped with `OrConditional(fallback)` renders as an
if/else pair: the primary expression under the guard that the source field
exists, and the fallback under the complementary guard that it does not
exist; both blocks appear in the rendered field map, and the rendering of a
field map never emits the CUE default-value operator (no default-union field
occurs anywhere in it). -/
theorem orconditional_renders_if_else_pair
    (varName name f : String) (fb : Value) (fm : List (String × MapEntry)) :
    renderMapEntry varName (name, .orConditional f fb)
      = .cons (.ifBlock (.fieldExists varName f false)
            (CueNodes.one (.field name (.fieldRef varName f))))
          (CueNodes.one (.ifBlock (.fieldExists varName f true)
            (CueNodes.one (.field name fb))))
    ∧ ((name, MapEntry.orConditional f fb) ∈ fm →
        CueNode.ifBlock (.fieldExists varName f false)
            (CueNodes.one (.field name (.fieldRef varName f)))
          ∈ (renderFieldMap varName fm).toList
        ∧ CueNode.ifBlock (.fieldExists varName f true)
            (CueNodes.one (.field name fb))
          ∈ (renderFieldMap varName fm).toList)
    ∧ countDefaultFields (renderFieldMap varName fm) = 0 := by
  refine ⟨rfl, ?_, ?_⟩
  · intro hmem
    have hsorted : (name, MapEntry.orConditional f fb) ∈ sortByKey fm := by
      rw [sortByKey]
      simpa using hmem
    have hns : renderMapEntry varName (name, .orConditional f fb)
        ∈ (sortByKey fm).map (renderMapEntry varName) :=
      List.mem_map_of_mem _ hsorted
    constructor
    · refine mem_toList_concatNodes hns ?_
      simp [renderMapEntry, CueNodes.toList, CueNodes.one]
    · refine mem_toList_concatNodes hns ?_
      simp [renderMapEntry, CueNodes.toList, CueNodes.one]
  · rw [renderFieldMap]
    refine countDefaultFields_concat_zero _ ?_
    intro ns hns
    rcases List.mem_map.mp hns with ⟨e, _, rfl⟩
    exact countDefaultFields_renderMapEntry varName e

/-- Witness for C9 at the `ports` name-fallback scenario of the
ConditionalOrFieldRef test. -/
theorem orconditional_renders_if_else_pair_witness :
    ((("name" : String), MapEntry.orConditional "name"
        (.functionCall "strconv" "FormatInt"
          (.cons (.fieldRef "v" "port") (.cons (.lit .int "10") .nil))))
      ∈ [(("containerPort" : String), MapEntry.ref "port"),
         ("name", MapEntry.orConditional "name"
           (.functionCall "strconv" "FormatInt"
             (.cons (.fieldRef "v" "port") (.cons (.lit .int "10") .nil))))])
    ∧ (renderMapEntry "v" ("name", .orConditional "name"
          (.functionCall "strconv" "FormatInt"
            (.cons (.fieldRef "v" "port") (.cons (.lit .int "10") .nil))))
        = .cons (.ifBlock (.fieldExists "v" "name" false)
              (CueNodes.one (.field "name" (.fieldRef "v" "name"))))
            (CueNodes.one (.ifBlock (.fieldExists "v" "name" true)
              (CueNodes.one (.field "name"
                (.functionCall "strconv" "FormatInt"
                  (.cons (.fieldRef "v" "port") (.cons (.lit .int "10") .nil)))))))
      ∧ CueNode.ifBlock (.fieldExists "v" "name" false)
            (CueNodes.one (.field "name" (.fieldRef "v" "name")))
          ∈ (renderFieldMap "v"
              [("containerPort", MapEntry.ref "port"),
               ("name", MapEntry.orConditional "name"
                 (.functionCall "strconv" "FormatInt"
                   (.cons (.fieldRef "v" "port")
                     (.cons (.lit .int "10") .nil))))]).toList
      ∧ CueNode.ifBlock (.fieldExists "v" "name" true)
            (CueNodes.one (.field "name"
              (.functionCall "strconv" "FormatInt"
                (.cons (.fieldRef "v" "port") (.cons (.lit .int "10") .nil)))))
          ∈ (renderFieldMap "v"
              [("containerPort", MapEntry.ref "port"),
               ("name", MapEntry.orConditional "name"
                 (.functionCall "strconv" "FormatInt"
                   (.cons (.fieldRef "v" "port")
                     (.cons (.lit .int "10") .nil))))]).toList
      ∧ countDefaultFields (renderFieldMap "v"
          [("containerPort", MapEntry.ref "port"),
           ("name", MapEntry.orConditional "name"
             (.functionCall "strconv" "FormatInt"
               (.cons (.fieldRef "v" "port")
                 (.cons (.lit .int "10") .nil))))]) = 0) := by
  have h := orconditional_renders_if_else_pair "v" "name" "name"
    (.functionCall "strconv" "FormatInt"
      (.cons (.fieldRef "v" "port") (.cons (.lit .int "10") .nil)))
    [("containerPort", MapEntry.ref "port"),
     ("name", MapEntry.orConditional "name"
       (.functionCall "strconv" "FormatInt"
         (.cons (.fieldRef "v" "port") (.cons (.lit .int "10") .nil))))]
  have hm := h.2.1 (by decide)
  exact ⟨by decide, h.1, hm.1, hm.2, h.2.2⟩

mutual
theorem value_imports_known : ∀ (v : Value) (pkg : String),
    pkg ∈ Value.imports v → pkg ∈ keysOf knownImportFns
  | .lit _ _, pkg, h => by simp [Value.imports] at h
  | .paramRef _, pkg, h => by simp [Value.imports] at h
  | .fieldRef _ _, pkg, h => by simp [Value.imports] at h
  | .letRef _, pkg, h => by simp [Value.imports] at h
  | .functionCall p f args, pkg, h => by
    rw [Value.imports] at h
    rcases List.mem_append.mp h with h | h
    · by_cases hk : (p, f) ∈ knownImportFns
      · rw [if_pos hk] at h
        rcases List.mem_singleton.mp h with rfl
        exact List.mem_map_of_mem Prod.fst hk
      · rw [if_neg hk] at h
        simp at h
    · exact valueList_imports_known args pkg h
  | .binaryOp _ l r, pkg, h => by
    rw [Value.imports] at h
    rcases List.mem_append.mp h with h | h
    · exact value_imports_known l pkg h
    · exact value_imports_known r pkg h
  | .inlineStruct fields, pkg, h => vfields_imports_known fields pkg h
  | .arrayValue entries, pkg, h => valueList_imports_known entries pkg h
  | .arrayConcat l r, pkg, h => by
    rw [Value.imports] at h
    rcases List.mem_append.mp h with h | h
    · exact value_imports_known l pkg h
    · exact value_imports_known r pkg h
  | .inlineArray fields, pkg, h => vfields_imports_known fields pkg h

theorem valueList_imports_known : ∀ (vs : ValueList) (pkg : String),
    pkg ∈ ValueList.imports vs → pkg ∈ keysOf knownImportFns
  | .nil, pkg, h => by simp [ValueList.imports] at h
  | .cons v tail, pkg, h => by
    rw [ValueList.imports] at h
    rcases List.mem_append.mp h with h | h
    · exact value_imports_known v pkg h
    · exact valueList_imports_known tail pkg h

theorem vfields_imports_known : ∀ (fs : VFields) (pkg : String),
    pkg ∈ VFields.imports fs → pkg ∈ keysOf knownImportFns
  | .nil, pkg, h => by simp [VFields.imports] at h
  | .cons _ v tail, pkg, h => by
    rw [VFields.imports] at h
    rcases List.mem_append.mp h with h | h
    · exact value_imports_known v pkg h
    · exact vfields_imports_known tail pkg h
end

mutual
theorem cond_imports_known : ∀ (c : Cond) (pkg : String),
    pkg ∈ Cond.imports c → pkg ∈ keysOf knownImportFns
  | .cmp _ l r, pkg, h => by
    rw [Cond.imports] at h
    rcases List.mem_append.mp h with h | h
    · exact value_imports_known l pkg h
    · exact value_imports_known r pkg h
  | .and items, pkg, h => condList_imports_known items pkg h
  | .or items, pkg, h => condList_imports_known items pkg h
  | .not c, pkg, h => cond_imports_known c pkg h
  | .fieldExists _ _ _, pkg, h => by simp [Cond.imports] at h
  | .pathExists _, pkg, h => by simp [Cond.imports] at h

theorem condList_imports_known : ∀ (cl : CondList) (pkg : String),
    pkg ∈ CondList.imports cl → pkg ∈ keysOf knownImportFns
  | .nil, pkg, h => by simp [CondList.imports] at h
  | .cons c tail, pkg, h => by
    rw [CondList.imports] at h
    rcases List.mem_append.mp h with h | h
    · exact cond_imports_known c pkg h
    · exact condList_imports_known tail pkg h
end

theorem resourceRawImports_known (r : Resource) (pkg : String)
    (h : pkg ∈ resourceRawImports r) : pkg ∈ keysOf knownImportFns := by
  rw [resourceRawImports] at h
  rcases List.mem_flatten.mp h with ⟨xs, hxs, hmem⟩
  rcases List.mem_map.mp hxs with ⟨pc, _, rfl⟩
  rcases List.mem_flatten.mp hmem with ⟨ys, hys, hmem2⟩
  rcases List.mem_map.mp hys with ⟨cv, _, rfl⟩
  rcases List.mem_append.mp hmem2 with h' | h'
  · cases hc : cv.cond with
    | some c =>
      rw [hc] at h'
      exact cond_imports_known c pkg h'
    | none => rw [hc] at h'; simp at h'
  · exact value_imports_known cv.value pkg h'

/-- **C10** — The rendered import set of a resource is sorted and
duplicate-free; a package appears in it iff some value (or guard) of the
resource references a known `(package, function)` pair from the table, and
then exactly once; a function call whose namespace is outside the table
contributes no import (the call is still rendered, generation never fails),
and such a namespace never appears in the import set. -/
theorem import_set_sorted_unique_best_effort (r : Resource) :
    (resourceImports r).Sorted (· ≤ ·)
    ∧ (resourceImports r).Nodup
    ∧ (∀ pkg, pkg ∈ resourceImports r ↔ pkg ∈ resourceRawImports r)
    ∧ (∀ pkg, pkg ∈ resourceRawImports r → (resourceImports r).count pkg = 1)
    ∧ (∀ pkg fn args, (pkg, fn) ∈ knownImportFns →
        pkg ∈ Value.imports (.functionCall pkg fn args))
    ∧ (∀ pkg fn args, (∀ fn2, (pkg, fn2) ∉ knownImportFns) →
        Value.imports (.functionCall pkg fn args) = ValueList.imports args)
    ∧ (∀ pkg, pkg ∉ keysOf knownImportFns → pkg ∉ resourceImports r) := by
  have hmemiff : ∀ pkg, pkg ∈ resourceImports r ↔ pkg ∈ resourceRawImports r := by
    intro pkg
    rw [resourceImports, List.mem_insertionSort, mem_dedupFirst]
  have hnd : (resourceImports r).Nodup := by
    rw [resourceImports]
    exact (List.Perm.nodup_iff
      (List.perm_insertionSort _ _)).mpr (nodup_dedupFirst _)
  refine ⟨?_, hnd, hmemiff, ?_, ?_, ?_, ?_⟩
  · rw [resourceImports]
    exact List.sorted_insertionSort _ _
  · intro pkg hmem
    exact List.count_eq_one_of_mem hnd ((hmemiff pkg).mpr hmem)
  · intro pkg fn args hk
    rw [Value.imports, if_pos hk]
    exact List.mem_append_left _ (List.mem_singleton_self _)
  · intro pkg fn args hunk
    rw [Value.imports, if_neg (hunk fn), List.nil_append]
  · intro pkg hunk hmem
    exact hunk (resourceRawImports_known r pkg ((hmemiff pkg).mp hmem))

/-- Concrete resource for the C10 witness: a single annotation set to
`strconv.FormatInt(parameter.port, 10)`. -/
def c10Resource : Resource :=
  ⟨"apps/v1", "Deployment",
    [("metadata.annotations.port",
      [⟨none, .functionCall "strconv" "FormatInt"
        (.cons (.paramRef "parameter.port") (.cons (.lit .int "10") .nil))⟩])]⟩

/-- Witness for C10 at the strconv import-detection scenario. -/
theorem import_set_sorted_unique_best_effort_witness :
    ("strconv" ∈ resourceRawImports c10Resource
      ∧ ("strconv", "FormatInt") ∈ knownImportFns
      ∧ "nosuchpkg" ∉ keysOf knownImportFns)
    ∧ ((resourceImports c10Resource).count "strconv" = 1
      ∧ "strconv" ∈ Value.imports (.functionCall "strconv" "FormatInt"
          (.cons (.paramRef "parameter.port") (.cons (.lit .int "10") .nil)))
      ∧ "nosuchpkg" ∉ resourceImports c10Resource) :=
  ⟨⟨by decide, by decide, by decide⟩,
    (import_set_sorted_unique_best_effort c10Resource).2.2.2.1 "strconv"
      (by decide),
    (import_set_sorted_unique_best_effort c10Resource).2.2.2.2.1 "strconv"
      "FormatInt" _ (by decide),
    (import_set_sorted_unique_best_effort c10Resource).2.2.2.2.2.2 "nosuchpkg"
      (by decide)⟩

end DefKit
